import Mathlib

/-!
Verification of the version comparison and tag-resolution engine of the
updates-sucks repository (Go).  The Go sources embedded here are
`pkg/version` (semver / calver / string parsing, comparison, filtering,
sorting, latest-tag selection), the pure tag-pipeline part of
`pkg/scanner/git.go` (prefix stripping, suffix filtering, latest-tag
selection) and `compareVersions` from `cmd/scan.go`.

Modelling conventions:
* Go strings are Lean `String`s; all character-level work happens on
  `String.data : List Char`.  Go compares strings byte-wise; since UTF-8
  byte order coincides with code-point order, character-wise comparison
  by `Char.toNat` is the same order.
* Go's `strconv.Atoi` (a 64-bit `int` platform) is modelled faithfully:
  `atoiChars` accepts an optionally signed digit string whose value fits
  the `int64` range and reports a range overflow as an error, which
  `CompareCalVer` observes; `atoiDropErr` is Atoi's value with the error
  discarded, as `ParseSemVer` stores it — the exact value in range,
  `math.MaxInt64` on positive overflow (`ParseInt` returns the maximum
  magnitude integer on `ErrRange`).
* Fallible Go functions returning `(T, error)` become `Except String T`
  (or `Option` for `ParseSemVer`, whose error text is rebuilt by its
  callers).
* `sort.Slice` / `sort.Strings` are modelled by a stable insertion sort
  (`sortBy`).  For `sort.Strings` the order is antisymmetric, so the
  sorted result is unique and the model is exact.  For `sort.Slice` the
  Go sort is unstable and the relative order of `Equal`-comparing
  elements is unspecified (spec §9 declares the tie-break undefined);
  the model agrees with Go on sortedness, on the produced multiset, and
  on being the identity on already-sorted input.
-/

/-- Go `version.CompareResult` (`Equal`, `Greater`, `Less` by `iota`). -/
inductive CompareResult where
  | Equal : CompareResult
  | Greater : CompareResult
  | Less : CompareResult
deriving DecidableEq, Repr

export CompareResult (Equal Greater Less)

deriving instance DecidableEq for Except

/-- Go `version.Version`:  `Original`, `Major`, `Minor`, `Patch`,
`PreRelease`, `Build`.  The three numeric fields hold `strconv.Atoi`'s
error-discarded values of `\d+` captures (saturated at `MaxInt64` on
overflow), hence naturals. -/
structure Version where
  original : String
  major : Nat
  minor : Nat
  patch : Nat
  preRelease : String
  build : String
deriving DecidableEq, Repr

/- ## Character and list utilities -/

/-- The character class `[0-9A-Za-z-]` of the Go semver regex
(`Char.isAlphanum` is exactly ASCII `[0-9A-Za-z]`). -/
def isIdentChar (c : Char) : Bool := c.isAlphanum || c = '-'

/-- `\d+`: a non-empty run of ASCII digits. -/
def allDigits1 (l : List Char) : Bool := !l.isEmpty && l.all Char.isDigit

/-- Numeric value of a digit string (the exact value of Go
`strconv.Atoi` on an in-range digit capture). -/
def digitsToNat (l : List Char) : Nat :=
  l.foldl (fun n c => n * 10 + (c.toNat - '0'.toNat)) 0

/-- Go `math.MaxInt64` (the upper bound of `int` on 64-bit platforms,
which `strconv.Atoi` targets). -/
def maxInt64 : Nat := 2 ^ 63 - 1

/-- Go `strconv.Atoi` on an all-digit regex capture with the returned
error discarded, as in `ParseSemVer` (`major, _ := strconv.Atoi(…)`):
the exact value when it fits a 64-bit `int`, and `math.MaxInt64` on a
range error, since `ParseInt` returns the maximum magnitude integer
together with `ErrRange`. -/
def atoiDropErr (l : List Char) : Nat := min (digitsToNat l) maxInt64

/-- Go `strings.Split s sep` for a single-character separator:
the list of maximal separator-free groups.  Always non-empty. -/
def splitOnChar (sep : Char) : List Char → List (List Char)
  | [] => [[]]
  | c :: rest =>
    match splitOnChar sep rest with
    | [] => [[]]
    | g :: gs => if c = sep then [] :: g :: gs else (c :: g) :: gs

/-- Split at the first occurrence of `sep`:  `(before, some after)` when
`sep` occurs, `(l, none)` otherwise. -/
def splitFirst (sep : Char) : List Char → List Char × Option (List Char)
  | [] => ([], none)
  | c :: rest =>
    if c = sep then ([], some rest)
    else
      match splitFirst sep rest with
      | (a, r) => (c :: a, r)

/-- Interleave `sep` between the groups (left inverse of `splitOnChar`). -/
def joinSep (sep : Char) : List (List Char) → List Char
  | [] => []
  | [g] => g
  | g :: g' :: gs => g ++ sep :: joinSep sep (g' :: gs)

/-- Go `strings.TrimPrefix version "v"`: drop one leading `'v'`. -/
def stripV : List Char → List Char
  | 'v' :: rest => rest
  | l => l

/-- Lexicographic comparison of char lists by code point (`Char.lt`
compares the scalar values).  This is the order of Go's `<` / `>` on
strings (byte order; UTF-8 byte order equals code-point order). -/
def listCmp : List Char → List Char → CompareResult
  | [], [] => Equal
  | [], _ :: _ => Less
  | _ :: _, [] => Greater
  | a :: as, b :: bs =>
    if b < a then Greater
    else if a < b then Less
    else listCmp as bs

/-- Go string comparison (`current > latest` iff `strCmp … = Greater`). -/
def strCmp (a b : String) : CompareResult := listCmp a.data b.data

/-- Go `strconv.Atoi` where the caller checks the error
(`CompareCalVer`): optional sign, then one or more digits, and the
value must fit a 64-bit `int` (`-2^63 ≤ n ≤ 2^63 - 1`); a syntax or
range failure is an error (`none`). -/
def atoiChars (l : List Char) : Option Int :=
  match l with
  | '+' :: ds =>
    if allDigits1 ds ∧ digitsToNat ds ≤ maxInt64 then
      some (digitsToNat ds : Int)
    else none
  | '-' :: ds =>
    if allDigits1 ds ∧ digitsToNat ds ≤ 2 ^ 63 then
      some (-(digitsToNat ds : Int))
    else none
  | ds =>
    if allDigits1 ds ∧ digitsToNat ds ≤ maxInt64 then
      some (digitsToNat ds : Int)
    else none

/-- Does `sub` occur in `l` as a contiguous sublist?
(Go `strings.Contains l sub`.) -/
def containsSub (sub : List Char) : List Char → Bool
  | [] => sub.isEmpty
  | c :: t => sub.isPrefixOf (c :: t) || containsSub sub t

/-- Go `strings.Contains s sub`. -/
def containsSubstring (s sub : String) : Bool := containsSub sub.data s.data

/- ## The semver parser (`version.ParseSemVer`)

The Go source matches the anchored regex

  `^(\d+)\.(\d+)\.(\d+)(?:-([0-9A-Za-z-]+(?:\.[0-9A-Za-z-]+)*))?`
  `(?:\+([0-9A-Za-z-]+(?:\.[0-9A-Za-z-]+)*))?$`

after `strings.TrimPrefix version "v"`, and builds the `Version` from
the five captures (`Atoi` on the numeric ones).  The regex is
deterministic, which justifies the split-based operational reading:

* `'+'` belongs to no character class of the pattern, so a match splits
  the input at `'+'` into the core-plus-prerelease part and (at most
  one) build part; two or more `'+'` make a match impossible.
* Inside the first part, the core `(\d+)\.(\d+)\.(\d+)` contains no
  `'-'`, so the first `'-'` (if any) starts the pre-release capture
  (whose class does contain `'-'`).
* The core splits at `'.'` into exactly three non-empty digit runs (the
  captures contain no `'.'`).
* A pre-release / build capture is exactly a non-empty `'.'`-separated
  sequence of non-empty `[0-9A-Za-z-]` runs (`dottedIdentsOk`).
* Greediness never changes acceptance: shortening any capture leaves a
  remainder beginning with a class character or `'.'`, which neither
  `\+`, `-`, nor `$` can match, so maximal-munch is complete.
-/

/-- One-or-more dot-separated non-empty `[0-9A-Za-z-]` runs:
the language of `[0-9A-Za-z-]+(?:\.[0-9A-Za-z-]+)*`. -/
def dottedIdentsOk (l : List Char) : Bool :=
  (splitOnChar '.' l).all fun seg => !seg.isEmpty && seg.all isIdentChar

/-- The `(\d+)\.(\d+)\.(\d+)` core. -/
def parseCoreTriple (core : List Char) : Option (Nat × Nat × Nat) :=
  match splitOnChar '.' core with
  | [d1, d2, d3] =>
    if allDigits1 d1 && allDigits1 d2 && allDigits1 d3 then
      some (atoiDropErr d1, atoiDropErr d2, atoiDropErr d3)
    else none
  | _ => none

/-- Core plus optional `-PRERELEASE` (the part before any `'+'`). -/
def parseMainPR (main : List Char) : Option ((Nat × Nat × Nat) × List Char) :=
  match splitFirst '-' main with
  | (core, none) => (parseCoreTriple core).map fun t => (t, [])
  | (core, some pr) =>
    if dottedIdentsOk pr then (parseCoreTriple core).map fun t => (t, pr)
    else none

/-- Whole body after the `v`-strip: `((major, minor, patch), pre, build)`. -/
def parseSemVerBody (cs : List Char) :
    Option ((Nat × Nat × Nat) × List Char × List Char) :=
  match splitOnChar '+' cs with
  | [main] => (parseMainPR main).map fun tp => (tp.1, tp.2, [])
  | [main, b] =>
    if dottedIdentsOk b then (parseMainPR main).map fun tp => (tp.1, tp.2, b)
    else none
  | _ => none

/-- Go `version.ParseSemVer`.  `Original` keeps the raw input (with the
`v`); failure is `none` (Go: `invalid semver format` error). -/
def ParseSemVer (s : String) : Option Version :=
  match parseSemVerBody (stripV s.data) with
  | some ((ma, mi, pa), pr, b) => some ⟨s, ma, mi, pa, ⟨pr⟩, ⟨b⟩⟩
  | none => none

/- ## Comparators -/

/-- Go `(*Version).Compare`, translated branch for branch. -/
def Version.compare (v other : Version) : CompareResult :=
  if v.major > other.major then Greater
  else if v.major < other.major then Less
  else if v.minor > other.minor then Greater
  else if v.minor < other.minor then Less
  else if v.patch > other.patch then Greater
  else if v.patch < other.patch then Less
  else if v.preRelease = "" ∧ other.preRelease ≠ "" then Greater
  else if v.preRelease ≠ "" ∧ other.preRelease = "" then Less
  else if v.preRelease ≠ "" ∧ other.preRelease ≠ "" then
    if strCmp v.preRelease other.preRelease = Greater then Greater
    else if strCmp v.preRelease other.preRelease = Less then Less
    else Equal
  else Equal

/-- Go `version.CompareSemVer`. -/
def CompareSemVer (current latest : String) : Except String CompareResult :=
  match ParseSemVer current with
  | none => .error ("failed to parse current version: invalid semver format: " ++ current)
  | some currentVer =>
    match ParseSemVer latest with
    | none => .error ("failed to parse latest version: invalid semver format: " ++ latest)
    | some latestVer => .ok (currentVer.compare latestVer)

/-- The `i = 0,1,2` loop of Go `version.CompareCalVer`, on the two
(length-3) component lists.  Parsing short-circuits at the first
numeric difference. -/
def calverLoop : List (List Char) → List (List Char) → Except String CompareResult
  | c :: cs, l :: ls =>
    match atoiChars c with
    | none => .error ("invalid calver number: " ++ (⟨c⟩ : String))
    | some currentNum =>
      match atoiChars l with
      | none => .error ("invalid calver number: " ++ (⟨l⟩ : String))
      | some latestNum =>
        if currentNum > latestNum then .ok Greater
        else if currentNum < latestNum then .ok Less
        else calverLoop cs ls
  | _, _ => .ok Equal

/-- Go `version.CompareCalVer`. -/
def CompareCalVer (current latest : String) : Except String CompareResult :=
  let currentParts := splitOnChar '.' current.data
  let latestParts := splitOnChar '.' latest.data
  if currentParts.length = 3 && latestParts.length = 3 then
    calverLoop currentParts latestParts
  else .error "invalid calver format"

/-- Go `version.CompareString`. -/
def CompareString (current latest : String) : Except String CompareResult :=
  if current = latest then .ok Equal
  else if strCmp current latest = Greater then .ok Greater
  else .ok Less

/- ## Filtering and sorting -/

/-- Go `version.FilterValidSemVer`. -/
def FilterValidSemVer (tags : List String) : List String :=
  tags.filter fun tag => (ParseSemVer tag).isSome

/-- The calver validity regex `^(\d{4})\.(\d{1,2})\.(\d+)$` of Go
`version.FilterValidCalVer`: exactly three all-digit dot components,
the first of exactly four digits, the second of one or two. -/
def calverValid (tag : String) : Bool :=
  match splitOnChar '.' tag.data with
  | [y, m, d] =>
    y.length == 4 && y.all Char.isDigit &&
    (m.length == 1 || m.length == 2) && m.all Char.isDigit &&
    !d.isEmpty && d.all Char.isDigit
  | _ => false

/-- Go `version.FilterValidCalVer`. -/
def FilterValidCalVer (tags : List String) : List String :=
  tags.filter calverValid

/-- Insert `x` into `l` in front of the first element it is strictly
`less` than (the movement performed by Go's insertion sort). -/
def insertSorted (less : α → α → Bool) (x : α) : List α → List α
  | [] => [x]
  | y :: ys => if less x y then x :: y :: ys else y :: insertSorted less x ys

/-- Model of Go `sort.Slice` / `sort.Strings` with strict comparison
function `less`: a stable insertion sort (see the header note). -/
def sortBy (less : α → α → Bool) (l : List α) : List α :=
  l.foldl (fun acc x => insertSorted less x acc) []

/-- The `less` closure of Go `version.SortSemVer`. -/
def semverLess (a b : Version) : Bool := a.compare b == Less

/-- Go `<` on strings, as the `sort.Strings` ordering. -/
def strLess (a b : String) : Bool := strCmp a b == Less

/-- Go `sort.Strings` (ascending). -/
def sortStrings (l : List String) : List String := sortBy strLess l

/-- Go `version.SortSemVer`: parse (dropping failures), sort by
`Compare = Less`, return the `Original` strings. -/
def SortSemVer (tags : List String) : List String :=
  (sortBy semverLess (tags.filterMap ParseSemVer)).map Version.original

/-- Go `version.SortCalVer`: filter to calver-valid tags, then
`sort.Strings`. -/
def SortCalVer (tags : List String) : List String :=
  sortStrings (FilterValidCalVer tags)

/-- Go `version.GetLatestVersion`. -/
def GetLatestVersion (tags : List String) (scheme : String) : Except String String :=
  match scheme with
  | "semver" =>
    let validTags := FilterValidSemVer tags
    if validTags.isEmpty then .error "no valid semver tags found"
    else .ok ((SortSemVer validTags).getLastD "")
  | "calver" =>
    let validTags := FilterValidCalVer tags
    if validTags.isEmpty then .error "no valid calver tags found"
    else .ok ((SortCalVer validTags).getLastD "")
  | "string" =>
    if tags.isEmpty then .error "no tags found"
    else .ok ((sortStrings tags).getLastD "")
  | _ => .error ("unsupported versioning scheme: " ++ scheme)

/- ## The scanner's pure tag pipeline (`pkg/scanner/git.go`) -/

/-- Go `strings.HasPrefix s p`. -/
def hasPfx (s p : String) : Bool := p.data.isPrefixOf s.data

/-- Go `strings.TrimPrefix s p`: strip `p` when present, otherwise a
no-op. -/
def trimPfx (s p : String) : String :=
  if hasPfx s p then ⟨s.data.drop p.data.length⟩ else s

/-- Go `(*GitScanner).removePrefix` (renamed; Lean-side restriction on
the identifier): keep only tags with the prefix, stripped. -/
def removePfx (tags : List String) (p : String) : List String :=
  tags.filterMap fun tag =>
    if hasPfx tag p then some (⟨tag.data.drop p.data.length⟩ : String) else none

/-- Go `(*GitScanner).filterSuffixes`: drop every tag containing any of
the listed substrings. -/
def filterSuffixes (tags ignoreSuffixes : List String) : List String :=
  tags.filter fun tag => !(ignoreSuffixes.any fun sfx => containsSubstring tag sfx)

/-- Go `(*GitScanner).getValidTags`. -/
def getValidTags (tags : List String) (scheme : String) : List String :=
  match scheme with
  | "semver" => FilterValidSemVer tags
  | "calver" => FilterValidCalVer tags
  | "string" => tags
  | _ => tags

/-- Go `(*GitScanner).findLatestVersionFromValidTags`.  (The Go
`sorted[len(sorted)-1]` index is reached only with a non-empty sorted
list; `getLastD ""` is that element there.) -/
def findLatestVersionFromValidTags (validTags : List String) (scheme : String) :
    Except String String :=
  if validTags.isEmpty then .error "no valid tags found after filtering"
  else
    match scheme with
    | "semver" => .ok ((SortSemVer validTags).getLastD "")
    | "calver" => .ok ((SortCalVer validTags).getLastD "")
    | "string" => .ok ((sortStrings validTags).getLastD "")
    | _ => .error ("unsupported versioning scheme: " ++ scheme)

/-- The pure filtering/selection segment of Go
`(*GitScanner).GetLatestVersion` (its lines between prefix removal and
prefix re-adding): validity filter, then conditional suffix filter,
then selection.  This is the spec's `selectLatest`. -/
def selectLatest (tags : List String) (scheme : String)
    (ignoreSuffixes : List String) : Except String String :=
  let validTags := getValidTags tags scheme
  let validTags2 :=
    if ignoreSuffixes.length > 0 then filterSuffixes validTags ignoreSuffixes
    else validTags
  findLatestVersionFromValidTags validTags2 scheme

/- ## `cmd/scan.go` -/

/-- Go `config.Versioning` (field `IgnorePrefix` renamed `ignorePfx`;
Lean-side restriction on the identifier). -/
structure Versioning where
  scheme : String
  ignorePfx : String
  ignoreSuffixes : List String
deriving DecidableEq, Repr

/-- The stripped comparison operand of Go `compareVersions`
(`strings.TrimPrefix` under `versioning != nil && IgnorePrefix != ""`). -/
def effStripped (versioning : Option Versioning) (s : String) : String :=
  match versioning with
  | some v => if v.ignorePfx ≠ "" then trimPfx s v.ignorePfx else s
  | none => s

/-- The effective scheme of Go `compareVersions` (defaults to
`"semver"` when the policy or its scheme is unset). -/
def effScheme (versioning : Option Versioning) : String :=
  match versioning with
  | some v => if v.scheme ≠ "" then v.scheme else "semver"
  | none => "semver"

/-- Go `compareVersions` from `cmd/scan.go` (the spec's `needsUpdate`). -/
def compareVersions (current latest : String) (versioning : Option Versioning) :
    Except String Bool :=
  let currentCmp := effStripped versioning current
  let latestCmp := effStripped versioning latest
  match effScheme versioning with
  | "semver" =>
    match CompareSemVer currentCmp latestCmp with
    | .error e => .error e
    | .ok result => .ok (result == Less)
  | "calver" =>
    match CompareCalVer currentCmp latestCmp with
    | .error e => .error e
    | .ok result => .ok (result == Less)
  | "string" =>
    match CompareString currentCmp latestCmp with
    | .error e => .error e
    | .ok result => .ok (result == Less)
  | scheme => .error ("unsupported versioning scheme: " ++ scheme)

/- ## Specification-side forms

The following definitions restate, in the spec's declarative vocabulary,
what the claims assert about the code; they are compared with the
operational definitions above by the theorems below. -/

/-- The inverse of a comparison verdict (spec §8: `compare(b,a)` is
`compare(a,b)` inverted). -/
def invRes : CompareResult → CompareResult
  | Equal => Equal
  | Greater => Less
  | Less => Greater

/-- Lexicographic composition of comparison verdicts. -/
def cmpThen : CompareResult → CompareResult → CompareResult
  | Equal, s => s
  | Greater, _ => Greater
  | Less, _ => Less

/-- Three-way comparison on naturals, `Greater` when the first is
larger. -/
def cmpNat (a b : Nat) : CompareResult :=
  if b < a then Greater else if a < b then Less else Equal

/-- The spec's pre-release ordering (§4.2): empty outranks non-empty,
two non-empty strings compare as opaque strings. -/
def prCmp (p q : String) : CompareResult :=
  if p = q then Equal
  else if p = "" then Greater
  else if q = "" then Less
  else listCmp p.data q.data

/-- A non-empty run of `[0-9A-Za-z-]` characters (one pre-release /
build identifier of the spec's grammar, §4.1). -/
def IdentSeg (seg : List Char) : Prop :=
  seg ≠ [] ∧ ∀ c ∈ seg, isIdentChar c = true

/-- A dot-separated sequence of identifiers (spec §4.1 `PRERELEASE` /
`BUILD`). -/
def DottedIdents (l : List Char) : Prop :=
  ∃ segs : List (List Char),
    segs ≠ [] ∧ (∀ s ∈ segs, IdentSeg s) ∧ l = joinSep '.' segs

/-- Declarative reading of the semver grammar (spec §4.1): after
stripping one leading `v`, the input is
`MAJOR.MINOR.PATCH[-PRERELEASE][+BUILD]`; the pre-release and build
fields equal the matched components, and each numeric field holds
`strconv.Atoi`'s error-discarded value of its component (exact in the
64-bit `int` range, `MaxInt64` on overflow). -/
def SemVerRepr (s : String) (v : Version) : Prop :=
  v.original = s ∧
  ∃ d1 d2 d3 prPart bPart : List Char,
    stripV s.data = d1 ++ '.' :: (d2 ++ '.' :: (d3 ++ prPart ++ bPart)) ∧
    allDigits1 d1 = true ∧ allDigits1 d2 = true ∧ allDigits1 d3 = true ∧
    v.major = atoiDropErr d1 ∧ v.minor = atoiDropErr d2 ∧ v.patch = atoiDropErr d3 ∧
    ((prPart = [] ∧ v.preRelease = "") ∨
      ∃ pr, prPart = '-' :: pr ∧ DottedIdents pr ∧ v.preRelease = (⟨pr⟩ : String)) ∧
    ((bPart = [] ∧ v.build = "") ∨
      ∃ b, bPart = '+' :: b ∧ DottedIdents b ∧ v.build = (⟨b⟩ : String))

/-- Declarative reading of the calver validity regex actually used by
`FilterValidCalVer`: `^(\d{4})\.(\d{1,2})\.(\d+)$`. -/
def CalverShape (t : String) : Prop :=
  ∃ y m d : List Char,
    t.data = y ++ '.' :: (m ++ '.' :: d) ∧
    y.length = 4 ∧ (∀ c ∈ y, c.isDigit = true) ∧
    (m.length = 1 ∨ m.length = 2) ∧ (∀ c ∈ m, c.isDigit = true) ∧
    d ≠ [] ∧ (∀ c ∈ d, c.isDigit = true)

/-- Sortedness with respect to a strict `less` function: no later
element is strictly less than an earlier one. -/
def SortedB (less : α → α → Bool) (l : List α) : Prop :=
  List.Pairwise (fun a b => less b a = false) l

/- ## Basic lemmas: string comparison -/

theorem str_ext {p q : String} (h : p.data = q.data) : p = q := by
  cases p; cases q; exact congrArg String.mk h

theorem listCmp_self : ∀ l : List Char, listCmp l l = Equal
  | [] => rfl
  | a :: as => by simp [listCmp, listCmp_self as]

theorem listCmp_inv : ∀ a b : List Char, listCmp b a = invRes (listCmp a b)
  | [], [] => rfl
  | [], _ :: _ => rfl
  | _ :: _, [] => rfl
  | a :: as, b :: bs => by
    rcases lt_trichotomy a b with h | h | h
    · simp [listCmp, h, lt_asymm h, invRes]
    · simp [listCmp, h, lt_irrefl, listCmp_inv as bs]
    · simp [listCmp, h, lt_asymm h, invRes]

theorem listCmp_eq_iff : ∀ a b : List Char, listCmp a b = Equal ↔ a = b
  | [], [] => by simp [listCmp]
  | [], _ :: _ => by simp [listCmp]
  | _ :: _, [] => by simp [listCmp]
  | a :: as, b :: bs => by
    rcases lt_trichotomy a b with h | h | h
    · simp [listCmp, h, lt_asymm h, ne_of_lt h]
    · simp [listCmp, h, lt_irrefl, listCmp_eq_iff as bs]
    · simp [listCmp, h, lt_asymm h, ne_of_gt h]

theorem listCmp_trans (a b c : List Char) (h1 : listCmp a b = Less)
    (h2 : listCmp b c = Less) : listCmp a c = Less := by
  induction a generalizing b c with
  | nil =>
    cases b with
    | nil => simp [listCmp] at h1
    | cons y bs =>
      cases c with
      | nil => simp [listCmp] at h2
      | cons z cs => simp [listCmp]
  | cons x as ih =>
    cases b with
    | nil => simp [listCmp] at h1
    | cons y bs =>
      cases c with
      | nil => simp [listCmp] at h2
      | cons z cs =>
        simp only [listCmp] at h1 h2 ⊢
        rcases lt_trichotomy x y with hxy | hxy | hxy
        · rcases lt_trichotomy y z with hyz | hyz | hyz
          · have hxz := lt_trans hxy hyz
            simp [hxz, lt_asymm hxz]
          · subst hyz
            simp [hxy, lt_asymm hxy]
          · simp [hyz, lt_asymm hyz] at h2
        · subst hxy
          rcases lt_trichotomy x z with hyz | hyz | hyz
          · simp [hyz, lt_asymm hyz]
          · subst hyz
            simp [lt_irrefl] at h1 h2 ⊢
            exact ih bs cs h1 h2
          · simp [hyz, lt_asymm hyz] at h2
        · simp [hxy, lt_asymm hxy] at h1


/- ## Comparator algebra -/

theorem cmpThen_eq_iff {r s : CompareResult} :
    cmpThen r s = Equal ↔ r = Equal ∧ s = Equal := by
  cases r <;> simp [cmpThen]

theorem cmpThen_less_iff {r s : CompareResult} :
    cmpThen r s = Less ↔ r = Less ∨ (r = Equal ∧ s = Less) := by
  cases r <;> simp [cmpThen]

theorem invRes_cmpThen (r s : CompareResult) :
    invRes (cmpThen r s) = cmpThen (invRes r) (invRes s) := by
  cases r <;> rfl

theorem cmpNat_eq_iff {a b : Nat} : cmpNat a b = Equal ↔ a = b := by
  unfold cmpNat
  split_ifs with h1 h2 <;> simp <;> omega

theorem cmpNat_less_iff {a b : Nat} : cmpNat a b = Less ↔ a < b := by
  unfold cmpNat
  split_ifs with h1 h2 <;> simp <;> omega

theorem cmpNat_inv (a b : Nat) : cmpNat b a = invRes (cmpNat a b) := by
  rcases Nat.lt_trichotomy a b with h | h | h
  · simp [cmpNat, h, Nat.lt_asymm h, invRes]
  · subst h
    simp [cmpNat, Nat.lt_irrefl, invRes]
  · simp [cmpNat, h, Nat.lt_asymm h, invRes]

theorem cmpNat_self (a : Nat) : cmpNat a a = Equal := by
  simp [cmpNat]

theorem prCmp_self (p : String) : prCmp p p = Equal := by
  simp [prCmp]

theorem cmpChain_id (r : CompareResult) :
    (if r = Greater then Greater else if r = Less then Less else Equal) = r := by
  cases r <;> simp

theorem prCmp_eq_iff {p q : String} : prCmp p q = Equal ↔ p = q := by
  by_cases hpq : p = q
  · simp [prCmp, hpq]
  · by_cases hp : p = ""
    · have hq : ¬"" = q := fun h => hpq (hp.trans h)
      simp [prCmp, hpq, hp, hq]
    · by_cases hq : q = ""
      · simp [prCmp, hpq, hp, hq]
      · simp only [prCmp, if_neg hpq, if_neg hp, if_neg hq, listCmp_eq_iff]
        exact ⟨fun h => absurd (str_ext h) hpq, fun h => absurd h hpq⟩

theorem prCmp_inv (p q : String) : prCmp q p = invRes (prCmp p q) := by
  by_cases hpq : p = q
  · subst hpq
    simp [prCmp, invRes]
  · have hqp : ¬q = p := fun h => hpq h.symm
    by_cases hp : p = ""
    · have hq : ¬q = "" := fun h => hpq (hp.trans h.symm)
      have hq' : ¬"" = q := fun h => hq h.symm
      simp [prCmp, hpq, hqp, hp, hq, hq', invRes]
    · by_cases hq : q = ""
      · have hp' : ¬"" = p := fun h => hp h.symm
        simp [prCmp, hpq, hqp, hp, hq, hp', invRes]
      · simp [prCmp, hpq, hqp, hp, hq, listCmp_inv p.data q.data]

theorem prCmp_less_iff {p q : String} :
    prCmp p q = Less ↔
      (p ≠ "" ∧ q = "") ∨ (p ≠ "" ∧ q ≠ "" ∧ listCmp p.data q.data = Less) := by
  by_cases hpq : p = q
  · subst hpq
    simp [prCmp, listCmp_self]
  · by_cases hp : p = ""
    · have hq : ¬"" = q := fun h => hpq (hp.trans h)
      simp [prCmp, hpq, hp, hq]
    · by_cases hq : q = ""
      · simp [prCmp, hpq, hp, hq]
      · simp [prCmp, hpq, hp, hq]

theorem prCmp_trans {p q r : String} (h1 : prCmp p q = Less)
    (h2 : prCmp q r = Less) : prCmp p r = Less := by
  rw [prCmp_less_iff] at h1 h2 ⊢
  rcases h1 with ⟨hp, hq⟩ | ⟨hp, hq, hc1⟩
  · rcases h2 with ⟨hq', _⟩ | ⟨hq', _⟩ <;> exact absurd hq hq'
  · rcases h2 with ⟨_, hr⟩ | ⟨_, hr, hc2⟩
    · exact Or.inl ⟨hp, hr⟩
    · exact Or.inr ⟨hp, hr, listCmp_trans _ _ _ hc1 hc2⟩

/-- `(*Version).Compare` is the lexicographic composition of the
three numeric comparisons and the pre-release comparison. -/
theorem compare_eq_cmpThen (a b : Version) :
    a.compare b =
      cmpThen (cmpNat a.major b.major)
        (cmpThen (cmpNat a.minor b.minor)
          (cmpThen (cmpNat a.patch b.patch)
            (prCmp a.preRelease b.preRelease))) := by
  rcases Nat.lt_trichotomy a.major b.major with h1 | h1 | h1
  · simp [Version.compare, cmpNat, cmpThen, h1, Nat.lt_asymm h1]
  · rcases Nat.lt_trichotomy a.minor b.minor with h2 | h2 | h2
    · simp [Version.compare, cmpNat, cmpThen, h1, h2, Nat.lt_irrefl, Nat.lt_asymm h2]
    · rcases Nat.lt_trichotomy a.patch b.patch with h3 | h3 | h3
      · simp [Version.compare, cmpNat, cmpThen, h1, h2, h3, Nat.lt_irrefl, Nat.lt_asymm h3]
      · simp only [Version.compare, h1, h2, h3, gt_iff_lt, lt_self_iff_false, if_false,
          cmpNat_self, cmpThen]
        by_cases hp : a.preRelease = ""
        · by_cases hq : b.preRelease = ""
          · have hpq : a.preRelease = b.preRelease := hp.trans hq.symm
            simp [hp, hq, hpq, prCmp]
          · have hpq : ¬a.preRelease = b.preRelease := fun h => hq (h.symm.trans hp)
            have hq' : ¬"" = b.preRelease := fun h => hq h.symm
            simp [hp, hq, hq', hpq, prCmp]
        · by_cases hq : b.preRelease = ""
          · have hpq : ¬a.preRelease = b.preRelease := fun h => hp (h.trans hq)
            simp [hp, hq, hpq, prCmp]
          · by_cases hpq : a.preRelease = b.preRelease
            · simp [hp, hq, hpq, prCmp, strCmp, listCmp_self]
            · simp only [prCmp, if_neg hpq, if_neg hp, if_neg hq, strCmp]
              simp [hp, hq]
              exact cmpChain_id _
      · simp [Version.compare, cmpNat, cmpThen, h1, h2, h3, Nat.lt_irrefl, Nat.lt_asymm h3]
    · simp [Version.compare, cmpNat, cmpThen, h1, h2, Nat.lt_irrefl, Nat.lt_asymm h2]
  · simp [Version.compare, cmpNat, cmpThen, h1, Nat.lt_asymm h1]

theorem compare_self (a : Version) : a.compare a = Equal := by
  simp [compare_eq_cmpThen, cmpNat_self, prCmp_self, cmpThen]

theorem compare_inv (a b : Version) : b.compare a = invRes (a.compare b) := by
  rw [compare_eq_cmpThen b a, compare_eq_cmpThen a b,
    cmpNat_inv a.major b.major, cmpNat_inv a.minor b.minor, cmpNat_inv a.patch b.patch,
    prCmp_inv a.preRelease b.preRelease, invRes_cmpThen, invRes_cmpThen, invRes_cmpThen]

theorem compare_eq_iff {a b : Version} :
    a.compare b = Equal ↔
      a.major = b.major ∧ a.minor = b.minor ∧ a.patch = b.patch ∧
        a.preRelease = b.preRelease := by
  rw [compare_eq_cmpThen]
  simp [cmpThen_eq_iff, cmpNat_eq_iff, prCmp_eq_iff, and_assoc]

theorem compare_less_iff {a b : Version} :
    a.compare b = Less ↔
      a.major < b.major ∨ (a.major = b.major ∧
        (a.minor < b.minor ∨ (a.minor = b.minor ∧
          (a.patch < b.patch ∨ (a.patch = b.patch ∧
            prCmp a.preRelease b.preRelease = Less))))) := by
  rw [compare_eq_cmpThen]
  simp [cmpThen_less_iff, cmpNat_less_iff, cmpNat_eq_iff]

theorem compare_less_trans {a b c : Version} (h1 : a.compare b = Less)
    (h2 : b.compare c = Less) : a.compare c = Less := by
  rw [compare_less_iff] at h1 h2 ⊢
  rcases h1 with h1 | ⟨e1, h1⟩
  · rcases h2 with h2 | ⟨f1, h2⟩
    · exact Or.inl (by omega)
    · exact Or.inl (by omega)
  · rcases h2 with h2 | ⟨f1, h2⟩
    · exact Or.inl (by omega)
    · refine Or.inr ⟨by omega, ?_⟩
      rcases h1 with h1 | ⟨e2, h1⟩
      · rcases h2 with h2 | ⟨f2, h2⟩
        · exact Or.inl (by omega)
        · exact Or.inl (by omega)
      · rcases h2 with h2 | ⟨f2, h2⟩
        · exact Or.inl (by omega)
        · refine Or.inr ⟨by omega, ?_⟩
          rcases h1 with h1 | ⟨e3, h1⟩
          · rcases h2 with h2 | ⟨f3, h2⟩
            · exact Or.inl (by omega)
            · exact Or.inl (by omega)
          · rcases h2 with h2 | ⟨f3, h2⟩
            · exact Or.inl (by omega)
            · exact Or.inr ⟨by omega, prCmp_trans h1 h2⟩

theorem semverLess_asym {a b : Version} (h : semverLess a b = true) :
    semverLess b a = false := by
  simp only [semverLess, beq_iff_eq] at h ⊢
  rw [compare_inv, h]
  simp [invRes]

theorem semverLess_trans {a b c : Version} (h1 : semverLess a b = true)
    (h2 : semverLess b c = true) : semverLess a c = true := by
  simp only [semverLess, beq_iff_eq] at h1 h2 ⊢
  exact compare_less_trans h1 h2

theorem strLess_asym {a b : String} (h : strLess a b = true) :
    strLess b a = false := by
  simp only [strLess, strCmp, beq_iff_eq] at h ⊢
  rw [listCmp_inv, h]
  simp [invRes]

theorem strLess_trans {a b c : String} (h1 : strLess a b = true)
    (h2 : strLess b c = true) : strLess a c = true := by
  simp only [strLess, strCmp, beq_iff_eq] at h1 h2 ⊢
  exact listCmp_trans _ _ _ h1 h2

/- ## Sorting lemmas -/

theorem insertSorted_perm (less : α → α → Bool) (x : α) :
    ∀ l : List α, List.Perm (insertSorted less x l) (x :: l)
  | [] => List.Perm.refl _
  | y :: ys => by
    unfold insertSorted
    split_ifs with h
    · exact List.Perm.refl _
    · exact ((insertSorted_perm less x ys).cons y).trans (List.Perm.swap x y ys)

theorem mem_insertSorted {less : α → α → Bool} {x z : α} {l : List α} :
    z ∈ insertSorted less x l ↔ z = x ∨ z ∈ l := by
  rw [(insertSorted_perm less x l).mem_iff]
  simp

theorem sortBy_core_perm (less : α → α → Bool) :
    ∀ (l acc : List α),
      List.Perm (l.foldl (fun acc x => insertSorted less x acc) acc) (acc ++ l)
  | [], acc => by simp
  | x :: xs, acc => by
    simp only [List.foldl_cons]
    have p1 := sortBy_core_perm less xs (insertSorted less x acc)
    have p2 : List.Perm (insertSorted less x acc ++ xs) ((x :: acc) ++ xs) :=
      List.Perm.append_right xs (insertSorted_perm less x acc)
    have p3 : List.Perm ((x :: acc) ++ xs) (acc ++ x :: xs) := by
      simpa using (@List.perm_middle _ x acc xs).symm
    exact (p1.trans p2).trans p3

theorem sortBy_perm (less : α → α → Bool) (l : List α) :
    List.Perm (sortBy less l) l := by
  simpa using sortBy_core_perm less l []

theorem mem_sortBy {less : α → α → Bool} {l : List α} {x : α} :
    x ∈ sortBy less l ↔ x ∈ l :=
  (sortBy_perm less l).mem_iff

theorem insertSorted_sorted (less : α → α → Bool)
    (asym : ∀ x y, less x y = true → less y x = false)
    (ltr : ∀ x y z, less x y = true → less y z = true → less x z = true)
    (x : α) : ∀ {l : List α}, SortedB less l → SortedB less (insertSorted less x l) := by
  intro l
  induction l with
  | nil => intro _; simp [insertSorted, SortedB]
  | cons y ys ih =>
    intro h
    rcases List.pairwise_cons.mp h with ⟨hy, ht⟩
    unfold insertSorted
    split_ifs with hxy
    · refine List.pairwise_cons.mpr ⟨?_, h⟩
      intro z hz
      rcases List.mem_cons.mp hz with rfl | hz'
      · exact asym x z hxy
      · cases hzx : less z x with
        | false => rfl
        | true =>
          have : less z y = true := ltr z x y hzx hxy
          rw [hy z hz'] at this
          exact absurd this (by simp)
    · refine List.pairwise_cons.mpr ⟨?_, ih ht⟩
      intro z hz
      rcases mem_insertSorted.mp hz with rfl | hz'
      · simpa using hxy
      · exact hy z hz'

theorem sortBy_core_sorted (less : α → α → Bool)
    (asym : ∀ x y, less x y = true → less y x = false)
    (ltr : ∀ x y z, less x y = true → less y z = true → less x z = true) :
    ∀ (l acc : List α), SortedB less acc →
      SortedB less (l.foldl (fun acc x => insertSorted less x acc) acc)
  | [], _, h => h
  | x :: xs, acc, h => by
    simp only [List.foldl_cons]
    exact sortBy_core_sorted less asym ltr xs _ (insertSorted_sorted less asym ltr x h)

theorem sortBy_sorted (less : α → α → Bool)
    (asym : ∀ x y, less x y = true → less y x = false)
    (ltr : ∀ x y z, less x y = true → less y z = true → less x z = true)
    (l : List α) : SortedB less (sortBy less l) :=
  sortBy_core_sorted less asym ltr l [] (List.Pairwise.nil)

theorem insertSorted_append (less : α → α → Bool) {x : α} :
    ∀ {l : List α}, (∀ y ∈ l, less x y = false) →
      insertSorted less x l = l ++ [x]
  | [], _ => rfl
  | y :: ys, h => by
    unfold insertSorted
    rw [if_neg (by simp [h y (List.mem_cons_self y ys)])]
    rw [insertSorted_append less fun z hz => h z (List.mem_cons_of_mem y hz)]
    simp

theorem foldl_insert_eq (less : α → α → Bool) :
    ∀ (l acc : List α), SortedB less (acc ++ l) →
      l.foldl (fun acc x => insertSorted less x acc) acc = acc ++ l
  | [], acc, _ => by simp
  | x :: xs, acc, h => by
    simp only [List.foldl_cons]
    have hcross : ∀ y ∈ acc, less x y = false := by
      rw [SortedB, List.pairwise_append] at h
      exact fun y hy => h.2.2 y hy x (List.mem_cons_self x xs)
    rw [insertSorted_append less hcross]
    have h' : SortedB less ((acc ++ [x]) ++ xs) := by
      simpa [SortedB, List.append_assoc] using h
    rw [foldl_insert_eq less xs (acc ++ [x]) h']
    simp

theorem sortBy_eq_self {less : α → α → Bool} {l : List α} (h : SortedB less l) :
    sortBy less l = l := by
  simpa using foldl_insert_eq less l [] (by simpa using h)

theorem pairwise_getLast? {R : α → α → Prop} :
    ∀ {l : List α} {x m : α}, List.Pairwise R l → x ∈ l → l.getLast? = some m →
      x = m ∨ R x m := by
  intro l
  induction l with
  | nil => intro x m _ hx; simp at hx
  | cons a t ih =>
    intro x m hp hl hlast
    rcases List.pairwise_cons.mp hp with ⟨ha, ht⟩
    cases t with
    | nil =>
      simp at hlast
      rcases List.mem_singleton.mp hl with rfl
      exact Or.inl hlast
    | cons b t' =>
      rw [List.getLast?_cons_cons] at hlast
      rcases List.mem_cons.mp hl with rfl | hl'
      · exact Or.inr (ha m (List.mem_of_getLast?_eq_some hlast))
      · exact ih ht hl' hlast

theorem getLastD_eq_of_getLast? {l : List α} {m : α} (d : α)
    (h : l.getLast? = some m) : l.getLastD d = m := by
  simp [List.getLastD_eq_getLast?, h]

theorem exists_getLast? {l : List α} (h : l ≠ []) : ∃ m, l.getLast? = some m :=
  Option.isSome_iff_exists.mp (List.getLast?_isSome.mpr h)

/- ## Split / join lemmas -/

theorem splitOnChar_ne_nil (sep : Char) : ∀ l : List Char, splitOnChar sep l ≠ []
  | [] => by simp [splitOnChar]
  | c :: rest => by
    simp only [splitOnChar]
    cases h : splitOnChar sep rest with
    | nil => simp
    | cons g gs => split_ifs <;> simp

theorem joinSep_splitOnChar (sep : Char) :
    ∀ l : List Char, joinSep sep (splitOnChar sep l) = l
  | [] => rfl
  | c :: rest => by
    have ih := joinSep_splitOnChar sep rest
    simp only [splitOnChar]
    cases h : splitOnChar sep rest with
    | nil => exact absurd h (splitOnChar_ne_nil sep rest)
    | cons g gs =>
      rw [h] at ih
      split_ifs with hc
      · subst hc
        simpa [joinSep] using ih
      · cases gs with
        | nil =>
          simp only [joinSep] at ih ⊢
          simp [ih]
        | cons g' gs' =>
          simp only [joinSep] at ih ⊢
          simp [ih]

theorem not_mem_of_mem_splitOnChar (sep : Char) :
    ∀ {l g : List Char}, g ∈ splitOnChar sep l → sep ∉ g := by
  intro l
  induction l with
  | nil =>
    intro g hg
    simp [splitOnChar] at hg
    simp [hg]
  | cons c rest ih =>
    intro g hg
    simp only [splitOnChar] at hg
    cases h : splitOnChar sep rest with
    | nil => exact absurd h (splitOnChar_ne_nil sep rest)
    | cons g' gs' =>
      rw [h] at hg
      split_ifs at hg with hc
      · rcases List.mem_cons.mp hg with rfl | hg'
        · simp
        · exact ih (h ▸ hg')
      · rcases List.mem_cons.mp hg with rfl | hg'
        · intro hmem
          rcases List.mem_cons.mp hmem with rfl | hmem'
          · exact hc rfl
          · exact ih (h ▸ List.mem_cons_self g' gs') hmem'
        · exact ih (h ▸ List.mem_cons_of_mem g' hg')

theorem splitOnChar_of_not_mem (sep : Char) :
    ∀ {l : List Char}, sep ∉ l → splitOnChar sep l = [l] := by
  intro l
  induction l with
  | nil => intro _; rfl
  | cons c rest ih =>
    intro h
    have hc : ¬c = sep := fun e => h (e ▸ List.mem_cons_self c rest)
    have hrest : sep ∉ rest := fun e => h (List.mem_cons_of_mem c e)
    simp only [splitOnChar, ih hrest]
    simp [hc]

theorem splitOnChar_append (sep : Char) :
    ∀ {a : List Char}, sep ∉ a → ∀ t : List Char,
      splitOnChar sep (a ++ sep :: t) = a :: splitOnChar sep t := by
  intro a
  induction a with
  | nil =>
    intro _ t
    simp only [List.nil_append, splitOnChar]
    cases h : splitOnChar sep t with
    | nil => exact absurd h (splitOnChar_ne_nil sep t)
    | cons g gs => simp
  | cons c rest ih =>
    intro h t
    have hc : ¬c = sep := fun e => h (e ▸ List.mem_cons_self c rest)
    have hrest : sep ∉ rest := fun e => h (List.mem_cons_of_mem c e)
    have ihr := ih hrest t
    simp only [List.cons_append, splitOnChar, List.append_eq]
    rw [ihr]
    simp [hc]

theorem splitOnChar_eq_single {sep : Char} {l x : List Char} :
    splitOnChar sep l = [x] ↔ l = x ∧ sep ∉ x := by
  constructor
  · intro h
    have hj := joinSep_splitOnChar sep l
    rw [h] at hj
    have hmx : x ∈ splitOnChar sep l := by rw [h]; simp
    exact ⟨by simpa [joinSep] using hj.symm,
      not_mem_of_mem_splitOnChar sep hmx⟩
  · rintro ⟨rfl, hm⟩
    exact splitOnChar_of_not_mem sep hm

theorem splitOnChar_eq_pair {sep : Char} {l x y : List Char} :
    splitOnChar sep l = [x, y] ↔ l = x ++ sep :: y ∧ sep ∉ x ∧ sep ∉ y := by
  constructor
  · intro h
    have hj := joinSep_splitOnChar sep l
    rw [h] at hj
    have hmx : x ∈ splitOnChar sep l := by rw [h]; simp
    have hmy : y ∈ splitOnChar sep l := by rw [h]; simp
    exact ⟨by simpa [joinSep] using hj.symm,
      not_mem_of_mem_splitOnChar sep hmx,
      not_mem_of_mem_splitOnChar sep hmy⟩
  · rintro ⟨rfl, hx, hy⟩
    rw [splitOnChar_append sep hx, splitOnChar_of_not_mem sep hy]

theorem splitOnChar_eq_triple {sep : Char} {l x y z : List Char} :
    splitOnChar sep l = [x, y, z] ↔
      l = x ++ sep :: (y ++ sep :: z) ∧ sep ∉ x ∧ sep ∉ y ∧ sep ∉ z := by
  constructor
  · intro h
    have hj := joinSep_splitOnChar sep l
    rw [h] at hj
    have hmx : x ∈ splitOnChar sep l := by rw [h]; simp
    have hmy : y ∈ splitOnChar sep l := by rw [h]; simp
    have hmz : z ∈ splitOnChar sep l := by rw [h]; simp
    exact ⟨by simpa [joinSep] using hj.symm,
      not_mem_of_mem_splitOnChar sep hmx,
      not_mem_of_mem_splitOnChar sep hmy,
      not_mem_of_mem_splitOnChar sep hmz⟩
  · rintro ⟨rfl, hx, hy, hz⟩
    rw [splitOnChar_append sep hx, splitOnChar_append sep hy,
      splitOnChar_of_not_mem sep hz]

theorem splitFirst_of_not_mem (sep : Char) :
    ∀ {l : List Char}, sep ∉ l → splitFirst sep l = (l, none) := by
  intro l
  induction l with
  | nil => intro _; rfl
  | cons c rest ih =>
    intro h
    have hc : ¬c = sep := fun e => h (e ▸ List.mem_cons_self c rest)
    have hrest : sep ∉ rest := fun e => h (List.mem_cons_of_mem c e)
    simp [splitFirst, hc, ih hrest]

theorem splitFirst_append (sep : Char) :
    ∀ {a : List Char}, sep ∉ a → ∀ r : List Char,
      splitFirst sep (a ++ sep :: r) = (a, some r) := by
  intro a
  induction a with
  | nil => intro _ r; simp [splitFirst]
  | cons c rest ih =>
    intro h r
    have hc : ¬c = sep := fun e => h (e ▸ List.mem_cons_self c rest)
    have hrest : sep ∉ rest := fun e => h (List.mem_cons_of_mem c e)
    simp [splitFirst, hc, ih hrest r]

theorem splitFirst_eq_none {sep : Char} :
    ∀ {l a : List Char}, splitFirst sep l = (a, none) → a = l ∧ sep ∉ l := by
  intro l
  induction l with
  | nil =>
    intro a h
    simp [splitFirst] at h
    simp [h]
  | cons c rest ih =>
    intro a h
    simp only [splitFirst] at h
    split_ifs at h with hc
    · simp at h
    · cases hsf : splitFirst sep rest with
      | mk a' r' =>
        rw [hsf] at h
        cases r' with
        | none =>
          rcases ih hsf with ⟨rfl, hm⟩
          simp only [Prod.mk.injEq] at h
          refine ⟨h.1.symm ▸ rfl, ?_⟩
          · intro hmem
            rcases List.mem_cons.mp hmem with rfl | hmem'
            · exact hc rfl
            · exact hm hmem'
        | some r'' => simp at h

theorem splitFirst_eq_some {sep : Char} :
    ∀ {l a r : List Char}, splitFirst sep l = (a, some r) →
      l = a ++ sep :: r ∧ sep ∉ a := by
  intro l
  induction l with
  | nil => intro a r h; simp [splitFirst] at h
  | cons c rest ih =>
    intro a r h
    simp only [splitFirst] at h
    split_ifs at h with hc
    · simp only [Prod.mk.injEq, Option.some.injEq] at h
      subst hc
      simp [← h.1, ← h.2]
    · cases hsf : splitFirst sep rest with
      | mk a' r' =>
        rw [hsf] at h
        cases r' with
        | none => simp at h
        | some r'' =>
          simp only [Prod.mk.injEq, Option.some.injEq] at h
          rcases ih hsf with ⟨hrest, hm⟩
          refine ⟨?_, ?_⟩
          · rw [← h.1, ← h.2, hrest]
            simp
          · rw [← h.1]
            intro hmem
            rcases List.mem_cons.mp hmem with rfl | hmem'
            · exact hc rfl
            · exact hm hmem'

/- ## Grammar lemmas -/

theorem splitOnChar_joinSep (sep : Char) :
    ∀ {segs : List (List Char)}, segs ≠ [] → (∀ s ∈ segs, sep ∉ s) →
      splitOnChar sep (joinSep sep segs) = segs := by
  intro segs
  induction segs with
  | nil => intro h _; exact absurd rfl h
  | cons g gs ih =>
    intro _ hmem
    cases gs with
    | nil =>
      simpa [joinSep] using
        splitOnChar_of_not_mem sep (hmem g (List.mem_cons_self g []))
    | cons g' gs' =>
      have hg : sep ∉ g := hmem g (List.mem_cons_self g (g' :: gs'))
      have hrest : ∀ s ∈ g' :: gs', sep ∉ s :=
        fun s hs => hmem s (List.mem_cons_of_mem g hs)
      simp only [joinSep]
      rw [splitOnChar_append sep hg, ih (by simp) hrest]

theorem dottedIdentsOk_iff {l : List Char} :
    dottedIdentsOk l = true ↔ DottedIdents l := by
  constructor
  · intro h
    refine ⟨splitOnChar '.' l, splitOnChar_ne_nil '.' l, ?_,
      (joinSep_splitOnChar '.' l).symm⟩
    intro s hs
    have hall := List.all_eq_true.mp h s hs
    rw [Bool.and_eq_true] at hall
    refine ⟨?_, fun c hc => List.all_eq_true.mp hall.2 c hc⟩
    intro he
    rw [he] at hall
    simp at hall
  · rintro ⟨segs, hne, hseg, rfl⟩
    have hnomem : ∀ s ∈ segs, '.' ∉ s := by
      intro s hs hd
      have := (hseg s hs).2 '.' hd
      exact absurd this (by decide)
    rw [dottedIdentsOk, splitOnChar_joinSep '.' hne hnomem]
    rw [List.all_eq_true]
    intro s hs
    rw [Bool.and_eq_true]
    refine ⟨?_, List.all_eq_true.mpr fun c hc => (hseg s hs).2 c hc⟩
    rcases hseg s hs with ⟨hne', _⟩
    simpa using hne'

theorem mem_joinSep {sep : Char} :
    ∀ {segs : List (List Char)} {c : Char}, c ∈ joinSep sep segs →
      c = sep ∨ ∃ s ∈ segs, c ∈ s := by
  intro segs
  induction segs with
  | nil => intro c hc; simp [joinSep] at hc
  | cons g gs ih =>
    intro c hc
    cases gs with
    | nil => exact Or.inr ⟨g, List.mem_cons_self g [], by simpa [joinSep] using hc⟩
    | cons g' gs' =>
      simp only [joinSep, List.mem_append, List.mem_cons] at hc
      rcases hc with hg | rfl | hrest
      · exact Or.inr ⟨g, List.mem_cons_self g (g' :: gs'), hg⟩
      · exact Or.inl rfl
      · rcases ih hrest with hsep | ⟨s, hs, hcs⟩
        · exact Or.inl hsep
        · exact Or.inr ⟨s, List.mem_cons_of_mem g hs, hcs⟩

theorem dotted_chars {l : List Char} (h : DottedIdents l) {c : Char} (hc : c ∈ l) :
    c = '.' ∨ isIdentChar c = true := by
  rcases h with ⟨segs, _, hseg, rfl⟩
  rcases mem_joinSep hc with rfl | ⟨s, hs, hcs⟩
  · exact Or.inl rfl
  · exact Or.inr ((hseg s hs).2 c hcs)

theorem dotted_not_mem {l : List Char} (h : DottedIdents l) {c : Char}
    (h1 : isIdentChar c = false) (h2 : c ≠ '.') : c ∉ l := by
  intro hc
  rcases dotted_chars h hc with e | e
  · exact h2 e
  · rw [h1] at e
    exact absurd e (by simp)

theorem digits_not_mem {d : List Char} (h : allDigits1 d = true) {c : Char}
    (hc : c.isDigit = false) : c ∉ d := by
  intro hm
  rw [allDigits1, Bool.and_eq_true] at h
  have := List.all_eq_true.mp h.2 c hm
  rw [hc] at this
  exact absurd this (by simp)

theorem parseCoreTriple_eq_some {core : List Char} {n1 n2 n3 : Nat} :
    parseCoreTriple core = some (n1, n2, n3) ↔
      ∃ d1 d2 d3 : List Char,
        core = d1 ++ '.' :: (d2 ++ '.' :: d3) ∧
        allDigits1 d1 = true ∧ allDigits1 d2 = true ∧ allDigits1 d3 = true ∧
        n1 = atoiDropErr d1 ∧ n2 = atoiDropErr d2 ∧ n3 = atoiDropErr d3 := by
  constructor
  · intro h
    unfold parseCoreTriple at h
    split at h
    · rename_i d1 d2 d3 heq
      split_ifs at h with hd
      simp only [Option.some.injEq, Prod.mk.injEq] at h
      rcases splitOnChar_eq_triple.mp heq with ⟨hcore, _, _, _⟩
      rw [Bool.and_eq_true, Bool.and_eq_true] at hd
      exact ⟨d1, d2, d3, hcore, hd.1.1, hd.1.2, hd.2,
        h.1.symm, h.2.1.symm, h.2.2.symm⟩
    · exact absurd h (by simp)
  · rintro ⟨d1, d2, d3, rfl, h1, h2, h3, rfl, rfl, rfl⟩
    have m1 : '.' ∉ d1 := digits_not_mem h1 (by decide)
    have m2 : '.' ∉ d2 := digits_not_mem h2 (by decide)
    have m3 : '.' ∉ d3 := digits_not_mem h3 (by decide)
    unfold parseCoreTriple
    rw [splitOnChar_eq_triple.mpr ⟨rfl, m1, m2, m3⟩]
    show (if (allDigits1 d1 && allDigits1 d2 && allDigits1 d3) = true then
        some (atoiDropErr d1, atoiDropErr d2, atoiDropErr d3) else none) =
      some (atoiDropErr d1, atoiDropErr d2, atoiDropErr d3)
    rw [h1, h2, h3]
    rfl

theorem core_not_mem {d1 d2 d3 : List Char} (h1 : allDigits1 d1 = true)
    (h2 : allDigits1 d2 = true) (h3 : allDigits1 d3 = true) {c : Char}
    (hc : c.isDigit = false) (hdot : c ≠ '.') :
    c ∉ d1 ++ '.' :: (d2 ++ '.' :: d3) := by
  intro hm
  simp only [List.mem_append, List.mem_cons] at hm
  rcases hm with hm | hm | hm | hm | hm
  · exact digits_not_mem h1 hc hm
  · exact hdot hm
  · exact digits_not_mem h2 hc hm
  · exact hdot hm
  · exact digits_not_mem h3 hc hm

theorem parseMainPR_sound {main : List Char} {t : (Nat × Nat × Nat) × List Char}
    (h : parseMainPR main = some t) :
    ∃ d1 d2 d3 prPart : List Char,
      main = d1 ++ '.' :: (d2 ++ '.' :: (d3 ++ prPart)) ∧
      allDigits1 d1 = true ∧ allDigits1 d2 = true ∧ allDigits1 d3 = true ∧
      t.1 = (atoiDropErr d1, atoiDropErr d2, atoiDropErr d3) ∧
      ((prPart = [] ∧ t.2 = []) ∨
        ∃ pr, prPart = '-' :: pr ∧ DottedIdents pr ∧ t.2 = pr) := by
  unfold parseMainPR at h
  split at h
  · rename_i core heq
    cases hpc : parseCoreTriple core with
    | none => rw [hpc] at h; simp at h
    | some trip =>
      rw [hpc] at h
      simp only [Option.map_some', Option.some.injEq] at h
      rcases trip with ⟨n1, n2, n3⟩
      rcases splitFirst_eq_none heq with ⟨rfl, _⟩
      rcases parseCoreTriple_eq_some.mp hpc with ⟨d1, d2, d3, hcore, g1, g2, g3, e1, e2, e3⟩
      refine ⟨d1, d2, d3, [], ?_, g1, g2, g3, ?_, Or.inl ⟨rfl, ?_⟩⟩
      · simpa using hcore
      · rw [← h]
        simp [e1, e2, e3]
      · rw [← h]
  · rename_i core pr heq
    split_ifs at h with hdok
    cases hpc : parseCoreTriple core with
    | none => rw [hpc] at h; simp at h
    | some trip =>
      rw [hpc] at h
      simp only [Option.map_some', Option.some.injEq] at h
      rcases trip with ⟨n1, n2, n3⟩
      rcases splitFirst_eq_some heq with ⟨rfl, _⟩
      rcases parseCoreTriple_eq_some.mp hpc with ⟨d1, d2, d3, hcore, g1, g2, g3, e1, e2, e3⟩
      refine ⟨d1, d2, d3, '-' :: pr, ?_, g1, g2, g3, ?_,
        Or.inr ⟨pr, rfl, dottedIdentsOk_iff.mp hdok, ?_⟩⟩
      · rw [hcore]
        simp [List.append_assoc]
      · rw [← h]
        simp [e1, e2, e3]
      · rw [← h]

theorem parseMainPR_complete {d1 d2 d3 prPart : List Char}
    (h1 : allDigits1 d1 = true) (h2 : allDigits1 d2 = true)
    (h3 : allDigits1 d3 = true)
    (hpr : prPart = [] ∨ ∃ pr, prPart = '-' :: pr ∧ DottedIdents pr) :
    parseMainPR (d1 ++ '.' :: (d2 ++ '.' :: (d3 ++ prPart))) =
      some ((atoiDropErr d1, atoiDropErr d2, atoiDropErr d3), prPart.tail) := by
  have hnm : '-' ∉ d1 ++ '.' :: (d2 ++ '.' :: d3) :=
    core_not_mem h1 h2 h3 (by decide) (by decide)
  rcases hpr with rfl | ⟨pr, rfl, hdot⟩
  · rw [show d1 ++ '.' :: (d2 ++ '.' :: (d3 ++ ([] : List Char))) =
      d1 ++ '.' :: (d2 ++ '.' :: d3) by simp]
    unfold parseMainPR
    rw [splitFirst_of_not_mem '-' hnm]
    show (parseCoreTriple (d1 ++ '.' :: (d2 ++ '.' :: d3))).map
        (fun t => (t, ([] : List Char))) =
      some ((atoiDropErr d1, atoiDropErr d2, atoiDropErr d3), ([] : List Char).tail)
    rw [parseCoreTriple_eq_some.mpr ⟨d1, d2, d3, rfl, h1, h2, h3, rfl, rfl, rfl⟩]
    rfl
  · rw [show d1 ++ '.' :: (d2 ++ '.' :: (d3 ++ '-' :: pr)) =
      (d1 ++ '.' :: (d2 ++ '.' :: d3)) ++ '-' :: pr by simp [List.append_assoc]]
    unfold parseMainPR
    rw [splitFirst_append '-' hnm pr]
    show (if dottedIdentsOk pr = true then
        (parseCoreTriple (d1 ++ '.' :: (d2 ++ '.' :: d3))).map (fun t => (t, pr))
      else none) =
      some ((atoiDropErr d1, atoiDropErr d2, atoiDropErr d3), ('-' :: pr).tail)
    rw [if_pos (dottedIdentsOk_iff.mpr hdot)]
    rw [parseCoreTriple_eq_some.mpr ⟨d1, d2, d3, rfl, h1, h2, h3, rfl, rfl, rfl⟩]
    rfl

theorem parseSemVerBody_sound {cs : List Char}
    {t : (Nat × Nat × Nat) × List Char × List Char}
    (h : parseSemVerBody cs = some t) :
    ∃ d1 d2 d3 prPart bPart : List Char,
      cs = d1 ++ '.' :: (d2 ++ '.' :: (d3 ++ prPart ++ bPart)) ∧
      allDigits1 d1 = true ∧ allDigits1 d2 = true ∧ allDigits1 d3 = true ∧
      t.1 = (atoiDropErr d1, atoiDropErr d2, atoiDropErr d3) ∧
      ((prPart = [] ∧ t.2.1 = []) ∨
        ∃ pr, prPart = '-' :: pr ∧ DottedIdents pr ∧ t.2.1 = pr) ∧
      ((bPart = [] ∧ t.2.2 = []) ∨
        ∃ b, bPart = '+' :: b ∧ DottedIdents b ∧ t.2.2 = b) := by
  unfold parseSemVerBody at h
  split at h
  · rename_i main heq
    cases hpm : parseMainPR main with
    | none => rw [hpm] at h; simp at h
    | some tp =>
      rw [hpm] at h
      simp only [Option.map_some', Option.some.injEq] at h
      rcases splitOnChar_eq_single.mp heq with ⟨rfl, _⟩
      rcases parseMainPR_sound hpm with ⟨d1, d2, d3, prPart, hmain, g1, g2, g3, e1, e2⟩
      refine ⟨d1, d2, d3, prPart, [], ?_, g1, g2, g3, ?_, ?_, ?_⟩
      · rw [hmain]
        simp
      · rw [← h]
        exact e1
      · rcases e2 with ⟨hp, he⟩ | ⟨pr, hp, hd, he⟩
        · exact Or.inl ⟨hp, by rw [← h]; exact he⟩
        · exact Or.inr ⟨pr, hp, hd, by rw [← h]; exact he⟩
      · exact Or.inl ⟨rfl, by rw [← h]⟩
  · rename_i main b heq
    split_ifs at h with hbok
    cases hpm : parseMainPR main with
    | none => rw [hpm] at h; simp at h
    | some tp =>
      rw [hpm] at h
      simp only [Option.map_some', Option.some.injEq] at h
      rcases splitOnChar_eq_pair.mp heq with ⟨rfl, _, _⟩
      rcases parseMainPR_sound hpm with ⟨d1, d2, d3, prPart, hmain, g1, g2, g3, e1, e2⟩
      refine ⟨d1, d2, d3, prPart, '+' :: b, ?_, g1, g2, g3, ?_, ?_, ?_⟩
      · rw [hmain]
        simp [List.append_assoc]
      · rw [← h]
        exact e1
      · rcases e2 with ⟨hp, he⟩ | ⟨pr, hp, hd, he⟩
        · exact Or.inl ⟨hp, by rw [← h]; exact he⟩
        · exact Or.inr ⟨pr, hp, hd, by rw [← h]; exact he⟩
      · exact Or.inr ⟨b, rfl, dottedIdentsOk_iff.mp hbok, by rw [← h]⟩
  · exact absurd h (by simp)

theorem parseSemVerBody_complete {d1 d2 d3 prPart bPart : List Char}
    (h1 : allDigits1 d1 = true) (h2 : allDigits1 d2 = true)
    (h3 : allDigits1 d3 = true)
    (hpr : prPart = [] ∨ ∃ pr, prPart = '-' :: pr ∧ DottedIdents pr)
    (hb : bPart = [] ∨ ∃ b, bPart = '+' :: b ∧ DottedIdents b) :
    parseSemVerBody (d1 ++ '.' :: (d2 ++ '.' :: (d3 ++ prPart ++ bPart))) =
      some ((atoiDropErr d1, atoiDropErr d2, atoiDropErr d3),
        prPart.tail, bPart.tail) := by
  have hmain : '+' ∉ d1 ++ '.' :: (d2 ++ '.' :: (d3 ++ prPart)) := by
    intro hm
    simp only [List.mem_append, List.mem_cons] at hm
    rcases hm with hm | hm | hm | hm | hm | hm
    · exact digits_not_mem h1 (by decide) hm
    · exact absurd hm (by decide)
    · exact digits_not_mem h2 (by decide) hm
    · exact absurd hm (by decide)
    · exact digits_not_mem h3 (by decide) hm
    · rcases hpr with rfl | ⟨pr, rfl, hdot⟩
      · simp at hm
      · rcases List.mem_cons.mp hm with e | hm'
        · exact absurd e (by decide)
        · exact dotted_not_mem hdot (by decide) (by decide) hm'
  rcases hb with rfl | ⟨b, rfl, hbdot⟩
  · rw [show d1 ++ '.' :: (d2 ++ '.' :: (d3 ++ prPart ++ ([] : List Char))) =
      d1 ++ '.' :: (d2 ++ '.' :: (d3 ++ prPart)) by simp]
    unfold parseSemVerBody
    rw [splitOnChar_of_not_mem '+' hmain]
    show (parseMainPR (d1 ++ '.' :: (d2 ++ '.' :: (d3 ++ prPart)))).map
        (fun tp => (tp.1, tp.2, ([] : List Char))) =
      some ((atoiDropErr d1, atoiDropErr d2, atoiDropErr d3),
        prPart.tail, ([] : List Char).tail)
    rw [parseMainPR_complete h1 h2 h3 hpr]
    rfl
  · have hbm : '+' ∉ b := dotted_not_mem hbdot (by decide) (by decide)
    rw [show d1 ++ '.' :: (d2 ++ '.' :: (d3 ++ prPart ++ '+' :: b)) =
      (d1 ++ '.' :: (d2 ++ '.' :: (d3 ++ prPart))) ++ '+' :: b by
        simp [List.append_assoc]]
    unfold parseSemVerBody
    rw [splitOnChar_append '+' hmain b, splitOnChar_of_not_mem '+' hbm]
    show (if dottedIdentsOk b = true then
        (parseMainPR (d1 ++ '.' :: (d2 ++ '.' :: (d3 ++ prPart)))).map
          (fun tp => (tp.1, tp.2, b))
      else none) =
      some ((atoiDropErr d1, atoiDropErr d2, atoiDropErr d3),
        prPart.tail, ('+' :: b).tail)
    rw [if_pos (dottedIdentsOk_iff.mpr hbdot)]
    rw [parseMainPR_complete h1 h2 h3 hpr]
    rfl

theorem parseSemVer_sound {s : String} {v : Version}
    (h : ParseSemVer s = some v) : SemVerRepr s v := by
  unfold ParseSemVer at h
  split at h
  · rename_i ma mi pa pr b heq
    simp only [Option.some.injEq] at h
    subst h
    rcases parseSemVerBody_sound heq with
      ⟨d1, d2, d3, prPart, bPart, hcs, g1, g2, g3, e1, e2, e3⟩
    simp only [Prod.mk.injEq] at e1
    refine ⟨rfl, d1, d2, d3, prPart, bPart, hcs, g1, g2, g3,
      e1.1, e1.2.1, e1.2.2, ?_, ?_⟩
    · rcases e2 with ⟨hp, he⟩ | ⟨pr', hp, hd, he⟩
      · exact Or.inl ⟨hp, by rw [show pr = [] from he]⟩
      · exact Or.inr ⟨pr', hp, hd, by rw [show pr = pr' from he]⟩
    · rcases e3 with ⟨hp, he⟩ | ⟨b', hp, hd, he⟩
      · exact Or.inl ⟨hp, by rw [show b = [] from he]⟩
      · exact Or.inr ⟨b', hp, hd, by rw [show b = b' from he]⟩
  · exact absurd h (by simp)

theorem parseSemVer_complete {s : String} {v : Version}
    (h : SemVerRepr s v) : ∃ w, ParseSemVer s = some w := by
  rcases h with ⟨_, d1, d2, d3, prPart, bPart, hcs, g1, g2, g3, _, _, _, hpr, hb⟩
  have hbody := parseSemVerBody_complete g1 g2 g3
    (hpr.imp And.left fun ⟨pr, h1, h2, _⟩ => ⟨pr, h1, h2⟩)
    (hb.imp And.left fun ⟨b, h1, h2, _⟩ => ⟨b, h1, h2⟩)
  refine ⟨⟨s, atoiDropErr d1, atoiDropErr d2, atoiDropErr d3,
    ⟨prPart.tail⟩, ⟨bPart.tail⟩⟩, ?_⟩
  unfold ParseSemVer
  rw [hcs, hbody]

theorem parse_original {s : String} {v : Version}
    (h : ParseSemVer s = some v) : v.original = s :=
  (parseSemVer_sound h).1

theorem parse_roundtrip {s : String} {v : Version}
    (h : ParseSemVer s = some v) : ParseSemVer v.original = some v := by
  rw [parse_original h]
  exact h

/- ## Filter and sort facts -/

theorem str_mk_data (s : String) : (⟨s.data⟩ : String) = s := by
  cases s
  rfl

theorem trimPfx_noop {s p : String} (h : hasPfx s p = false) : trimPfx s p = s := by
  simp [trimPfx, h]

theorem getLastD_mem {l : List α} (h : l ≠ []) (d : α) : l.getLastD d ∈ l := by
  rcases exists_getLast? h with ⟨m, hm⟩
  rw [getLastD_eq_of_getLast? d hm]
  exact List.mem_of_getLast?_eq_some hm

theorem sortBy_ne_nil {less : α → α → Bool} {l : List α} (h : l ≠ []) :
    sortBy less l ≠ [] := by
  intro he
  have hp := sortBy_perm less l
  rw [he] at hp
  exact h hp.symm.eq_nil

theorem sortedB_last_max {less : α → α → Bool}
    (asym : ∀ x y, less x y = true → less y x = false)
    {l : List α} (h : SortedB less l) {x : α} (hx : x ∈ l) (d : α) :
    less (l.getLastD d) x = false := by
  have hne : l ≠ [] := by rintro rfl; simp at hx
  rcases exists_getLast? hne with ⟨m, hm⟩
  rw [getLastD_eq_of_getLast? d hm]
  rcases pairwise_getLast? h hx hm with rfl | hr
  · cases hxx : less x x with
    | false => rfl
    | true => exact absurd (asym x x hxx) (by simp [hxx])
  · exact hr

theorem filterMap_map_original {l : List Version}
    (h : ∀ v ∈ l, ParseSemVer v.original = some v) :
    (l.map Version.original).filterMap ParseSemVer = l := by
  induction l with
  | nil => rfl
  | cons v t ih =>
    simp only [List.map_cons, List.filterMap_cons, h v (List.mem_cons_self v t)]
    rw [ih fun w hw => h w (List.mem_cons_of_mem v hw)]

theorem filterMap_length_all_some {f : α → Option β} :
    ∀ {l : List α}, (∀ x ∈ l, (f x).isSome) → (l.filterMap f).length = l.length := by
  intro l
  induction l with
  | nil => intro _; rfl
  | cons x t ih =>
    intro h
    have hx := h x (List.mem_cons_self x t)
    rcases Option.isSome_iff_exists.mp hx with ⟨b, hb⟩
    simp only [List.filterMap_cons, hb, List.length_cons]
    rw [ih fun y hy => h y (List.mem_cons_of_mem x hy)]

theorem mem_SortSemVer {tags : List String} {x : String}
    (h : x ∈ SortSemVer tags) : x ∈ tags := by
  unfold SortSemVer at h
  rcases List.mem_map.mp h with ⟨v, hv, rfl⟩
  rcases List.mem_filterMap.mp (mem_sortBy.mp hv) with ⟨t, ht, hp⟩
  rw [parse_original hp]
  exact ht

theorem SortSemVer_length {tags : List String}
    (hv : ∀ t ∈ tags, (ParseSemVer t).isSome) :
    (SortSemVer tags).length = tags.length := by
  unfold SortSemVer
  rw [List.length_map, (sortBy_perm _ _).length_eq, filterMap_length_all_some hv]

theorem SortSemVer_ne_nil {tags : List String} (hne : tags ≠ [])
    (hv : ∀ t ∈ tags, (ParseSemVer t).isSome) : SortSemVer tags ≠ [] := by
  intro he
  have := SortSemVer_length hv
  rw [he] at this
  exact hne (List.length_eq_zero.mp this.symm)

theorem mem_sortStrings {l : List String} {x : String} :
    x ∈ sortStrings l ↔ x ∈ l := mem_sortBy

theorem mem_SortCalVer {tags : List String} {x : String}
    (h : x ∈ SortCalVer tags) : x ∈ tags := by
  unfold SortCalVer at h
  exact List.mem_of_mem_filter (mem_sortStrings.mp h)

theorem FilterValidCalVer_of_all {tags : List String}
    (h : ∀ t ∈ tags, calverValid t = true) : FilterValidCalVer tags = tags :=
  List.filter_eq_self.mpr h

theorem SortCalVer_of_all_valid {tags : List String}
    (h : ∀ t ∈ tags, calverValid t = true) :
    SortCalVer tags = sortStrings tags := by
  unfold SortCalVer
  rw [FilterValidCalVer_of_all h]

theorem semverLess_asym' : ∀ x y : Version, semverLess x y = true → semverLess y x = false :=
  fun _ _ h => semverLess_asym h

theorem semverLess_trans' :
    ∀ x y z : Version, semverLess x y = true → semverLess y z = true →
      semverLess x z = true :=
  fun _ _ _ h1 h2 => semverLess_trans h1 h2

theorem strLess_asym' : ∀ x y : String, strLess x y = true → strLess y x = false :=
  fun _ _ h => strLess_asym h

theorem strLess_trans' :
    ∀ x y z : String, strLess x y = true → strLess y z = true → strLess x z = true :=
  fun _ _ _ h1 h2 => strLess_trans h1 h2

theorem SortSemVer_idem (tags : List String) :
    SortSemVer (SortSemVer tags) = SortSemVer tags := by
  have hround : ∀ v ∈ sortBy semverLess (tags.filterMap ParseSemVer),
      ParseSemVer v.original = some v := by
    intro v hv
    rcases List.mem_filterMap.mp (mem_sortBy.mp hv) with ⟨t, _, hp⟩
    exact parse_roundtrip hp
  show SortSemVer ((sortBy semverLess (tags.filterMap ParseSemVer)).map Version.original) =
    SortSemVer tags
  unfold SortSemVer
  rw [filterMap_map_original hround]
  rw [sortBy_eq_self (sortBy_sorted semverLess semverLess_asym' semverLess_trans' _)]

theorem sortStrings_idem {l : List String} : sortStrings (sortStrings l) = sortStrings l :=
  sortBy_eq_self (sortBy_sorted strLess strLess_asym' strLess_trans' l)

theorem SortCalVer_idem (tags : List String) :
    SortCalVer (SortCalVer tags) = SortCalVer tags := by
  have hvalid : ∀ t ∈ SortCalVer tags, calverValid t = true := by
    intro t ht
    unfold SortCalVer at ht
    exact List.of_mem_filter (mem_sortStrings.mp ht)
  rw [show SortCalVer (SortCalVer tags) = sortStrings (SortCalVer tags) from
    SortCalVer_of_all_valid hvalid]
  unfold SortCalVer
  exact sortStrings_idem

/- ## Pipeline reduction lemmas -/

theorem GetLatestVersion_calver (tags : List String) :
    GetLatestVersion tags "calver" =
      (if (FilterValidCalVer tags).isEmpty then .error "no valid calver tags found"
       else .ok ((SortCalVer (FilterValidCalVer tags)).getLastD "")) := rfl

theorem findLatest_semver (validTags : List String) :
    findLatestVersionFromValidTags validTags "semver" =
      (if validTags.isEmpty then .error "no valid tags found after filtering"
       else .ok ((SortSemVer validTags).getLastD "")) := rfl

theorem findLatest_calver (validTags : List String) :
    findLatestVersionFromValidTags validTags "calver" =
      (if validTags.isEmpty then .error "no valid tags found after filtering"
       else .ok ((SortCalVer validTags).getLastD "")) := rfl

theorem filterSuffixes_nil (l : List String) : filterSuffixes l [] = l := by
  simp [filterSuffixes]

theorem selectLatest_eq (tags : List String) (scheme : String) (sfx : List String) :
    selectLatest tags scheme sfx =
      findLatestVersionFromValidTags
        (filterSuffixes (getValidTags tags scheme) sfx) scheme := by
  unfold selectLatest
  cases sfx with
  | nil => rw [filterSuffixes_nil]; rfl
  | cons s rest => simp

theorem compareVersions_semver {current latest : String}
    {versioning : Option Versioning} (h : effScheme versioning = "semver") :
    compareVersions current latest versioning =
      match CompareSemVer (effStripped versioning current)
          (effStripped versioning latest) with
      | .error e => .error e
      | .ok result => .ok (result == Less) := by
  unfold compareVersions
  rw [h]
  rfl

theorem compareVersions_calver {current latest : String}
    {versioning : Option Versioning} (h : effScheme versioning = "calver") :
    compareVersions current latest versioning =
      match CompareCalVer (effStripped versioning current)
          (effStripped versioning latest) with
      | .error e => .error e
      | .ok result => .ok (result == Less) := by
  unfold compareVersions
  rw [h]
  rfl

theorem compareVersions_string {current latest : String}
    {versioning : Option Versioning} (h : effScheme versioning = "string") :
    compareVersions current latest versioning =
      match CompareString (effStripped versioning current)
          (effStripped versioning latest) with
      | .error e => .error e
      | .ok result => .ok (result == Less) := by
  unfold compareVersions
  rw [h]
  rfl
theorem compareVersions_default {current latest : String}
    {versioning : Option Versioning} (h1 : effScheme versioning ≠ "semver")
    (h2 : effScheme versioning ≠ "calver") (h3 : effScheme versioning ≠ "string") :
    compareVersions current latest versioning =
      .error ("unsupported versioning scheme: " ++ effScheme versioning) := by
  unfold compareVersions
  split
  · rename_i heq; exact absurd heq h1
  · rename_i heq; exact absurd heq h2
  · rename_i heq; exact absurd heq h3
  · rfl

theorem findLatest_ok_mem {F : List String} {scheme m : String}
    (h : findLatestVersionFromValidTags F scheme = .ok m)
    (hsem : scheme = "semver" → ∀ t ∈ F, (ParseSemVer t).isSome = true)
    (hcal : scheme = "calver" → ∀ t ∈ F, calverValid t = true) :
    m ∈ F := by
  unfold findLatestVersionFromValidTags at h
  split_ifs at h with he
  have hne : F ≠ [] := fun e => by rw [e] at he; simp at he
  split at h
  · simp only [Except.ok.injEq] at h
    subst h
    exact mem_SortSemVer (getLastD_mem (SortSemVer_ne_nil hne (hsem rfl)) "")
  · simp only [Except.ok.injEq] at h
    subst h
    rw [SortCalVer_of_all_valid (hcal rfl)]
    exact mem_sortStrings.mp (getLastD_mem (sortBy_ne_nil hne) "")
  · simp only [Except.ok.injEq] at h
    subst h
    exact mem_sortStrings.mp (getLastD_mem (sortBy_ne_nil hne) "")
  · simp at h

theorem mem_filterSuffixes_not_contains {x : String} {l sfx : List String}
    (h : x ∈ filterSuffixes l sfx) :
    ∀ s ∈ sfx, containsSubstring x s = false := by
  have hk := List.of_mem_filter h
  rw [Bool.not_eq_true'] at hk
  intro s hs
  cases hcs : containsSubstring x s with
  | false => rfl
  | true =>
    have : sfx.any (fun s => containsSubstring x s) = true :=
      List.any_eq_true.mpr ⟨s, hs, hcs⟩
    rw [this] at hk
    exact absurd hk (by simp)

theorem selectLatest_ok_mem {tags : List String} {scheme : String}
    {sfx : List String} {m : String}
    (h : selectLatest tags scheme sfx = .ok m) :
    m ∈ filterSuffixes (getValidTags tags scheme) sfx := by
  rw [selectLatest_eq] at h
  refine findLatest_ok_mem h ?_ ?_
  · rintro rfl t ht
    have ht' : t ∈ FilterValidSemVer tags := List.mem_of_mem_filter ht
    unfold FilterValidSemVer at ht'
    have hx := List.of_mem_filter ht'
    exact hx
  · rintro rfl t ht
    have ht' : t ∈ FilterValidCalVer tags := List.mem_of_mem_filter ht
    unfold FilterValidCalVer at ht'
    have hx := List.of_mem_filter ht'
    exact hx

theorem calverValid_iff {t : String} : calverValid t = true ↔ CalverShape t := by
  constructor
  · intro h
    unfold calverValid at h
    split at h
    · rename_i y m d heq
      rcases splitOnChar_eq_triple.mp heq with ⟨hdata, _, _, _⟩
      simp only [Bool.and_eq_true, beq_iff_eq, Bool.or_eq_true, List.all_eq_true,
        Bool.not_eq_true', List.isEmpty_eq_false] at h
      exact ⟨y, m, d, hdata, h.1.1.1.1.1, fun c hc => h.1.1.1.1.2 c hc,
        h.1.1.1.2, fun c hc => h.1.1.2 c hc, h.1.2, fun c hc => h.2 c hc⟩
    · exact absurd h (by simp)
  · rintro ⟨y, m, d, hdata, hy4, hyd, hm12, hmd, hdne, hdd⟩
    have my : '.' ∉ y := fun hm' => by
      have := hyd '.' hm'
      exact absurd this (by decide)
    have mm : '.' ∉ m := fun hm' => by
      have := hmd '.' hm'
      exact absurd this (by decide)
    have md : '.' ∉ d := fun hm' => by
      have := hdd '.' hm'
      exact absurd this (by decide)
    unfold calverValid
    rw [show splitOnChar '.' t.data = [y, m, d] from by
      rw [hdata]; exact splitOnChar_eq_triple.mpr ⟨rfl, my, mm, md⟩]
    simp only [Bool.and_eq_true, beq_iff_eq, Bool.or_eq_true, List.all_eq_true,
      Bool.not_eq_true', List.isEmpty_eq_false]
    exact ⟨⟨⟨⟨⟨hy4, fun c hc => hyd c hc⟩, hm12⟩, fun c hc => hmd c hc⟩, hdne⟩,
      fun c hc => hdd c hc⟩

/- ## Claim theorems -/

/-- C2: `Version.Compare` compares major, then minor, then patch
numerically with the first difference deciding; on equal triples a
version with empty pre-release is `Greater` than one with a non-empty
pre-release; two non-empty pre-releases compare as single opaque strings
in byte order; the `build` field never influences the result; and the
result is `Equal` exactly when the numeric triples and the pre-release
strings agree. -/
theorem semver_compare_spec (a b : Version) (x y : String) :
    (a.compare b =
      if a.major ≠ b.major then (if b.major < a.major then Greater else Less)
      else if a.minor ≠ b.minor then (if b.minor < a.minor then Greater else Less)
      else if a.patch ≠ b.patch then (if b.patch < a.patch then Greater else Less)
      else if a.preRelease = b.preRelease then Equal
      else if a.preRelease = "" then Greater
      else if b.preRelease = "" then Less
      else listCmp a.preRelease.data b.preRelease.data) ∧
    Version.compare { a with build := x } { b with build := y } = a.compare b ∧
    (a.compare b = Equal ↔
      a.major = b.major ∧ a.minor = b.minor ∧ a.patch = b.patch ∧
        a.preRelease = b.preRelease) := by
  refine ⟨?_, ?_, compare_eq_iff⟩
  · rw [compare_eq_cmpThen]
    by_cases h1 : a.major = b.major
    · simp only [h1, cmpNat_self, cmpThen, ne_eq, not_true_eq_false, if_false]
      by_cases h2 : a.minor = b.minor
      · simp only [h2, cmpNat_self, cmpThen, ne_eq, not_true_eq_false, if_false]
        by_cases h3 : a.patch = b.patch
        · simp only [h3, cmpNat_self, cmpThen, ne_eq, not_true_eq_false, if_false]
          rfl
        · rcases Nat.lt_trichotomy a.patch b.patch with h | h | h
          · simp [cmpNat, cmpThen, h, Nat.lt_asymm h, h3]
          · exact absurd h h3
          · simp [cmpNat, cmpThen, h, Nat.lt_asymm h, h3]
      · rcases Nat.lt_trichotomy a.minor b.minor with h | h | h
        · simp [cmpNat, cmpThen, h, Nat.lt_asymm h, h2]
        · exact absurd h h2
        · simp [cmpNat, cmpThen, h, Nat.lt_asymm h, h2]
    · rcases Nat.lt_trichotomy a.major b.major with h | h | h
      · simp [cmpNat, cmpThen, h, Nat.lt_asymm h, h1]
      · exact absurd h h1
      · simp [cmpNat, cmpThen, h, Nat.lt_asymm h, h1]
  · rw [compare_eq_cmpThen, compare_eq_cmpThen]

/-- C8: `Version.Compare` is reflexive (`Compare(a,a) = Equal`) and
`Compare(b,a)` is the exact inverse of `Compare(a,b)` (`Less` swaps with
`Greater`, `Equal` stays `Equal`). -/
theorem compare_reflexive_inverse (a b : Version) :
    a.compare a = Equal ∧ b.compare a = invRes (a.compare b) :=
  ⟨compare_self a, compare_inv a b⟩

/-- C9: both tag sorts are idempotent — re-sorting a list already
produced by `SortSemVer` (resp. `SortCalVer`) returns it unchanged. -/
theorem sorting_idempotent (tags : List String) :
    SortSemVer (SortSemVer tags) = SortSemVer tags ∧
    SortCalVer (SortCalVer tags) = SortCalVer tags :=
  ⟨SortSemVer_idem tags, SortCalVer_idem tags⟩

/-- C3 counterexample: both `"2024.9.1"` and `"2024.10.1"` survive the
calver validity filter, yet `GetLatestVersion` under scheme `calver`
returns `"2024.9.1"`, which the CalVer comparator ranks strictly below
the surviving tag `"2024.10.1"` — the returned tag is not
comparator-maximal. -/
theorem calver_latest_not_comparator_max :
    FilterValidCalVer ["2024.9.1", "2024.10.1"] = ["2024.9.1", "2024.10.1"] ∧
    GetLatestVersion ["2024.9.1", "2024.10.1"] "calver" = .ok "2024.9.1" ∧
    CompareCalVer "2024.9.1" "2024.10.1" = .ok Less := by
  refine ⟨by decide, by decide, by decide⟩

/-- C3 (amended): for scheme `calver`, when at least one tag survives
the validity filter, `GetLatestVersion` sorts the survivors in
lexicographic string order (`sort.Strings`), not by the CalVer
comparator, and returns the last element: a surviving tag that is
maximal among the survivors in string order. -/
theorem calver_latest_string_max {tags : List String}
    (h : FilterValidCalVer tags ≠ []) :
    ∃ m, GetLatestVersion tags "calver" = .ok m ∧ m ∈ FilterValidCalVer tags ∧
      ∀ t ∈ FilterValidCalVer tags, strLess m t = false := by
  have hie : ¬(FilterValidCalVer tags).isEmpty = true := fun e => h (by simpa using e)
  rw [GetLatestVersion_calver, if_neg hie]
  have hvalid : ∀ t ∈ FilterValidCalVer tags, calverValid t = true := by
    intro t ht
    unfold FilterValidCalVer at ht
    have hx := List.of_mem_filter ht
    exact hx
  rw [SortCalVer_of_all_valid hvalid]
  have hsne : sortStrings (FilterValidCalVer tags) ≠ [] := sortBy_ne_nil h
  have hsorted : SortedB strLess (sortStrings (FilterValidCalVer tags)) :=
    sortBy_sorted strLess strLess_asym' strLess_trans' _
  refine ⟨(sortStrings (FilterValidCalVer tags)).getLastD "", rfl, ?_, ?_⟩
  · exact mem_sortStrings.mp (getLastD_mem hsne "")
  · intro t ht
    exact sortedB_last_max strLess_asym' hsorted (mem_sortStrings.mpr ht) ""

/-- C3 witness: the amended statement applied to the concrete tag list
`["2024.9.1", "2024.10.1"]`. -/
theorem calver_latest_string_max_witness :
    ∃ m, GetLatestVersion ["2024.9.1", "2024.10.1"] "calver" = .ok m ∧
      m ∈ FilterValidCalVer ["2024.9.1", "2024.10.1"] ∧
      ∀ t ∈ FilterValidCalVer ["2024.9.1", "2024.10.1"], strLess m t = false :=
  calver_latest_string_max (by decide)

/-- C4 counterexample: `"1.2.3"` splits on `'.'` into exactly three
components, each parseable as a non-negative integer, yet
`FilterValidCalVer` rejects it (as it rejects `"2024.123.1"`): the
regex also constrains digit widths. -/
theorem calver_filter_width_cex :
    splitOnChar '.' (String.data "1.2.3") = [['1'], ['2'], ['3']] ∧
    atoiChars ['1'] = some 1 ∧ atoiChars ['2'] = some 2 ∧
    atoiChars ['3'] = some 3 ∧
    FilterValidCalVer ["1.2.3"] = [] ∧
    FilterValidCalVer ["2024.123.1"] = [] := by
  refine ⟨by decide, by decide, by decide, by decide, by decide, by decide⟩

/-- C4 (amended): the calver validity filter keeps a tag iff it consists
of exactly three dot-separated all-digit components whose first
component has exactly four digits, whose second has one or two, and
whose third has at least one (the regex `^(\d{4})\.(\d{1,2})\.(\d+)$`);
no further range validation is performed. -/
theorem calver_filter_spec (tags : List String) (t : String) :
    t ∈ FilterValidCalVer tags ↔ t ∈ tags ∧ CalverShape t := by
  unfold FilterValidCalVer
  rw [List.mem_filter, calverValid_iff]

/-- C5 (amended): `ParseSemVer` succeeds exactly on the grammar
`v?MAJOR.MINOR.PATCH[-PRERELEASE][+BUILD]` (one leading literal `v`
stripped; `MAJOR`/`MINOR`/`PATCH` non-empty digit runs; `PRERELEASE`
and `BUILD` dot-separated alphanumeric-or-hyphen identifier sequences),
with no partial parse; on success the pre-release and build fields
equal the matched components, and each numeric field equals
`strconv.Atoi`'s error-discarded value of its matched component — the
exact value in the 64-bit `int` range and `math.MaxInt64` beyond it
(`SemVerRepr`). -/
theorem parseSemVer_grammar (s : String) :
    (∀ v, ParseSemVer s = some v → SemVerRepr s v) ∧
    ((∃ v, SemVerRepr s v) → ∃ v, ParseSemVer s = some v) ∧
    (ParseSemVer s = none → ¬∃ v, SemVerRepr s v) := by
  refine ⟨fun _ h => parseSemVer_sound h, fun ⟨_, h⟩ => parseSemVer_complete h, ?_⟩
  rintro hn ⟨v, hv⟩
  rcases parseSemVer_complete hv with ⟨w, hw⟩
  rw [hn] at hw
  exact absurd hw (by simp)

/-- C5 counterexample: a 20-digit `MAJOR` matches the grammar and
`ParseSemVer` succeeds, but the stored field is `strconv.Atoi`'s
saturated `math.MaxInt64` value `9223372036854775807`, not the value
`99999999999999999999` of the matched component — the structured
fields do not always equal the matched components. -/
theorem parseSemVer_overflow_cex :
    ParseSemVer "99999999999999999999.0.0" =
      some ⟨"99999999999999999999.0.0", 9223372036854775807, 0, 0, "", ""⟩ ∧
    digitsToNat (String.data "99999999999999999999") = 99999999999999999999 ∧
    (99999999999999999999 : Nat) ≠ 9223372036854775807 := by
  refine ⟨by decide, by decide, by decide⟩

/-- C5 witness: the grammar reading of a concrete successful parse. -/
theorem parseSemVer_grammar_witness :
    SemVerRepr "v1.2.3-rc.1+b.7" ⟨"v1.2.3-rc.1+b.7", 1, 2, 3, "rc.1", "b.7"⟩ :=
  (parseSemVer_grammar "v1.2.3-rc.1+b.7").1 _ (by decide)

/-- C6: for schemes `semver` and `calver`, scheme-invalid tags are
merely excluded, and the scanner's selection succeeds iff at least one
tag survives validity filtering followed by suffix filtering; it
returns the "no valid tags" error exactly when the surviving
collection is empty. -/
theorem selectLatest_error_iff (tags : List String) (scheme : String)
    (sfx : List String) (hs : scheme = "semver" ∨ scheme = "calver") :
    ((∃ m, selectLatest tags scheme sfx = .ok m) ↔
      filterSuffixes (getValidTags tags scheme) sfx ≠ []) ∧
    (selectLatest tags scheme sfx = .error "no valid tags found after filtering" ↔
      filterSuffixes (getValidTags tags scheme) sfx = []) := by
  rw [selectLatest_eq]
  rcases hs with rfl | rfl
  · rw [findLatest_semver]
    by_cases he : filterSuffixes (getValidTags tags "semver") sfx = []
    · simp [he]
    · rw [if_neg (by simpa using he)]
      simp [he]
  · rw [findLatest_calver]
    by_cases he : filterSuffixes (getValidTags tags "calver") sfx = []
    · simp [he]
    · rw [if_neg (by simpa using he)]
      simp [he]

/-- C6 witness: under scheme `semver` the invalid tag
`"not-a-version"` is excluded without aborting, and selection succeeds
because `"1.0.0"` survives. -/
theorem selectLatest_error_iff_witness :
    ((∃ m, selectLatest ["not-a-version", "1.0.0"] "semver" [] = .ok m) ↔
      filterSuffixes (getValidTags ["not-a-version", "1.0.0"] "semver") [] ≠ []) ∧
    (selectLatest ["not-a-version", "1.0.0"] "semver" [] =
        .error "no valid tags found after filtering" ↔
      filterSuffixes (getValidTags ["not-a-version", "1.0.0"] "semver") [] = []) :=
  selectLatest_error_iff ["not-a-version", "1.0.0"] "semver" [] (Or.inl rfl)

/-- C7: a tag selected by the scanner pipeline survives the suffix
filter (applied after validity filtering and before sorting), so the
returned latest tag never contains any of the configured substrings;
and the spec's concrete scenario holds. -/
theorem suffix_filter_spec :
    (∀ (tags : List String) (scheme : String) (sfx : List String) (m : String),
        selectLatest tags scheme sfx = .ok m →
          m ∈ filterSuffixes (getValidTags tags scheme) sfx ∧
          ∀ s ∈ sfx, containsSubstring m s = false) ∧
    selectLatest ["1.0.0", "1.0.0-beta", "2.0.0"] "semver" ["beta"] = .ok "2.0.0" := by
  constructor
  · intro tags scheme sfx m h
    have hm := selectLatest_ok_mem h
    exact ⟨hm, mem_filterSuffixes_not_contains hm⟩
  · decide

/-- C7 witness: the general statement applied at the spec's scenario. -/
theorem suffix_filter_spec_witness :
    "2.0.0" ∈ filterSuffixes
        (getValidTags ["1.0.0", "1.0.0-beta", "2.0.0"] "semver") ["beta"] ∧
    ∀ s ∈ ["beta"], containsSubstring "2.0.0" s = false :=
  suffix_filter_spec.1 ["1.0.0", "1.0.0-beta", "2.0.0"] "semver" ["beta"] "2.0.0"
    suffix_filter_spec.2

/-- C10: the scanner's prefix removal keeps exactly the tags that start
with the configured prefix, each with the prefix removed (an
un-prefixed tag is discarded entirely), whereas `compareVersions`
treats a missing prefix as a silent no-op and compares the unstripped
string. -/
theorem remove_prefix_spec :
    (∀ (tags : List String) (p t' : String),
        t' ∈ removePfx tags p ↔ ∃ t ∈ tags, t.data = p.data ++ t'.data) ∧
    (∀ (current latest scheme p : String) (sfx : List String),
        p ≠ "" → hasPfx current p = false → hasPfx latest p = false →
        compareVersions current latest (some ⟨scheme, p, sfx⟩) =
          compareVersions current latest (some ⟨scheme, "", sfx⟩)) := by
  constructor
  · intro tags p t'
    unfold removePfx
    rw [List.mem_filterMap]
    constructor
    · rintro ⟨t, ht, hsome⟩
      split_ifs at hsome with hp
      simp only [Option.some.injEq] at hsome
      unfold hasPfx at hp
      rcases List.isPrefixOf_iff_prefix.mp hp with ⟨r, hr⟩
      refine ⟨t, ht, ?_⟩
      have hdr : t'.data = r := by
        rw [← hsome]
        show List.drop p.data.length t.data = r
        rw [← hr, List.drop_left]
      rw [← hr, hdr]
    · rintro ⟨t, ht, hdata⟩
      refine ⟨t, ht, ?_⟩
      have hp : hasPfx t p = true := by
        unfold hasPfx
        exact List.isPrefixOf_iff_prefix.mpr ⟨t'.data, hdata.symm⟩
      rw [if_pos hp, hdata, List.drop_left]
  · intro current latest scheme p sfx hp hc hl
    have e1 : effStripped (some ⟨scheme, p, sfx⟩) current = current := by
      simp [effStripped, hp, trimPfx, hc]
    have e2 : effStripped (some ⟨scheme, p, sfx⟩) latest = latest := by
      simp [effStripped, hp, trimPfx, hl]
    have e3 : effStripped (some ⟨scheme, "", sfx⟩) current = current := by
      simp [effStripped]
    have e4 : effStripped (some ⟨scheme, "", sfx⟩) latest = latest := by
      simp [effStripped]
    unfold compareVersions
    rw [e1, e2, e3, e4]
    rw [show effScheme (some ⟨scheme, p, sfx⟩) = effScheme (some ⟨scheme, "", sfx⟩)
      from rfl]

/-- C10 witness: the contrast direction applied at concrete inputs
where neither string carries the configured prefix. -/
theorem remove_prefix_spec_witness :
    compareVersions "1.0.0" "2.0.0" (some ⟨"semver", "x", []⟩) =
      compareVersions "1.0.0" "2.0.0" (some ⟨"semver", "", []⟩) :=
  remove_prefix_spec.2 "1.0.0" "2.0.0" "semver" "x" [] (by decide) (by decide)
    (by decide)

theorem compareString_verdict (c l : String) :
    (match CompareString c l with
      | Except.error e => Except.error e
      | Except.ok result => Except.ok (result == Less)) =
      Except.ok ((strLess c l : Bool)) := by
  unfold CompareString strLess
  by_cases he : c = l
  · subst he
    simp [strCmp, listCmp_self]
  · by_cases hg : strCmp c l = Greater
    · simp [he, hg]
    · have hl : strCmp c l = Less := by
        rcases hcv : strCmp c l with _ | _ | _
        · exact absurd (str_ext ((listCmp_eq_iff _ _).mp hcv)) he
        · exact absurd hcv hg
        · rfl
      simp [he, hg, hl]

/-- C1 (amended): `compareVersions` strips `ignorePrefix` from both
strings when non-empty (a no-op on a string without the prefix),
defaults the scheme to `semver` when unset; under `semver` it errors
iff either stripped string fails semver parsing and otherwise returns
the verdict `compare = Less`; under `calver` it returns the
`CompareCalVer` verdict, whose error behaviour is joint in the two
strings (the comparison short-circuits at the first numeric
difference); under `string` it never errors; unknown schemes error.
The spec's scenario `current v1.0.0 vs latest v1.0.0-rc.1` yields
`false`. -/
theorem needsUpdate_spec (current latest : String) (versioning : Option Versioning) :
    (effScheme versioning = "semver" →
      ((∃ e, compareVersions current latest versioning = .error e) ↔
        (ParseSemVer (effStripped versioning current) = none ∨
          ParseSemVer (effStripped versioning latest) = none)) ∧
      (∀ vc vl, ParseSemVer (effStripped versioning current) = some vc →
        ParseSemVer (effStripped versioning latest) = some vl →
        compareVersions current latest versioning = .ok (vc.compare vl == Less))) ∧
    (effScheme versioning = "calver" →
      compareVersions current latest versioning =
        Except.map (fun r => r == Less)
          (CompareCalVer (effStripped versioning current)
            (effStripped versioning latest))) ∧
    (effScheme versioning = "string" →
      compareVersions current latest versioning =
        .ok (strLess (effStripped versioning current)
          (effStripped versioning latest))) ∧
    (effScheme versioning ≠ "semver" → effScheme versioning ≠ "calver" →
      effScheme versioning ≠ "string" →
      compareVersions current latest versioning =
        .error ("unsupported versioning scheme: " ++ effScheme versioning)) ∧
    effScheme none = "semver" ∧
    (∀ p, hasPfx current p = false → trimPfx current p = current) ∧
    compareVersions "v1.0.0" "v1.0.0-rc.1" (some ⟨"semver", "", []⟩) = .ok false := by
  refine ⟨?_, ?_, ?_, ?_, rfl, fun p hp => trimPfx_noop hp, by decide⟩
  · intro h
    rw [compareVersions_semver h]
    constructor
    · cases hc : ParseSemVer (effStripped versioning current) with
      | none => simp [CompareSemVer, hc]
      | some vc =>
        cases hl : ParseSemVer (effStripped versioning latest) with
        | none => simp [CompareSemVer, hc, hl]
        | some vl => simp [CompareSemVer, hc, hl]
    · intro vc vl hc hl
      unfold CompareSemVer
      rw [hc, hl]
  · intro h
    rw [compareVersions_calver h]
    cases hcc : CompareCalVer (effStripped versioning current)
        (effStripped versioning latest) <;> simp [Except.map]
  · intro h
    rw [compareVersions_string h]
    exact compareString_verdict _ _
  · exact fun h1 h2 h3 => compareVersions_default h1 h2 h3

/-- C1 counterexample: under policy scheme `calver` the stripped
current string `"2.a.0"` fails calver parsing (component `"a"` is not
an integer), yet `compareVersions` returns the verdict `ok false`
instead of an error, because `CompareCalVer` decides at the first
component (`2 > 1`) before parsing the rest. -/
theorem needsUpdate_calver_no_error_cex :
    atoiChars (String.data "a") = none ∧
    splitOnChar '.' (String.data "2.a.0") = [['2'], ['a'], ['0']] ∧
    compareVersions "2.a.0" "1.b.0" (some ⟨"calver", "", []⟩) = .ok false := by
  refine ⟨by decide, by decide, by decide⟩

/-- C1 witness: the semver error characterization applied at a
concrete unparsable current version. -/
theorem needsUpdate_spec_witness :
    ∃ e, compareVersions "abc" "1.0.0" none = .error e :=
  ((needsUpdate_spec "abc" "1.0.0" none).1 rfl).1.mpr (Or.inl (by decide))
